import Mathlib

/-!
Verification model of the dependency-resolution and delivery core of
cloudfoundry/packit: the postal service (`postal/service.go`), the vacation
archive extractors, and the fs checksum calculator
(`fs/checksum_calculator.go`).

Go strings are modelled as Lean `String`/`List Char` (the inputs in scope are
ASCII, where Lean's codepoint order coincides with Go's byte order); machine
integers are modelled as `Nat` with explicit `% 2 ^ 32` where overflow
matters; fallible operations return `Option`/`Except`.

The semantic-version library used by `Service.Resolve`
(github.com/Masterminds/semver/v3) is not part of the repository; its version
type, ordering, and constraint semantics are modelled here after that
library's documented and published behaviour, at the level of detail
`service.go` exercises.
-/

namespace Packit

/-! ## Ordering helpers -/

theorem ordThen_eq_lt {o₁ o₂ : Ordering} :
    o₁.then o₂ = .lt ↔ o₁ = .lt ∨ (o₁ = .eq ∧ o₂ = .lt) := by
  cases o₁ <;> simp [Ordering.then]

theorem ordThen_eq_eq {o₁ o₂ : Ordering} :
    o₁.then o₂ = .eq ↔ o₁ = .eq ∧ o₂ = .eq := by
  cases o₁ <;> simp [Ordering.then]

theorem ordThen_swap {o₁ o₂ : Ordering} :
    (o₁.then o₂).swap = o₁.swap.then o₂.swap := by
  cases o₁ <;> cases o₂ <;> simp [Ordering.then, Ordering.swap]

/-! ## Character-list comparison (Go byte-wise string order) -/

/-- Comparison of single characters by code point, matching Go's byte
comparison on ASCII text. -/
def charCmp (a b : Char) : Ordering := compare a.toNat b.toNat

/-- Lexicographic comparison of lists given a comparison on elements; a
proper prefix is smaller.  This is Go's string comparison when applied to
character lists. -/
def listCmpWith (f : α → α → Ordering) : List α → List α → Ordering
  | [], [] => .eq
  | [], _ :: _ => .lt
  | _ :: _, [] => .gt
  | a :: as, b :: bs => ((f a b).then (listCmpWith f as bs))

/-- Byte-wise (code-point-wise) comparison of character lists. -/
def charListCmp (a b : List Char) : Ordering := listCmpWith charCmp a b

/-! ## A small theory of lawful three-way comparisons -/

/-- Bundle of laws making a three-way comparison a total preorder comparison:
antisymmetric under swapping and transitive through `lt` and `eq`. -/
structure LawCmp {α : Type _} (f : α → α → Ordering) : Prop where
  swap : ∀ a b, (f a b).swap = f b a
  lt_trans : ∀ {a b c}, f a b = .lt → f b c = .lt → f a c = .lt
  eq_lt : ∀ {a b c}, f a b = .eq → f b c = .lt → f a c = .lt
  lt_eq : ∀ {a b c}, f a b = .lt → f b c = .eq → f a c = .lt
  eq_trans : ∀ {a b c}, f a b = .eq → f b c = .eq → f a c = .eq

theorem LawCmp.gt_iff {f : α → α → Ordering} (hf : LawCmp f) {a b : α} :
    f a b = .gt ↔ f b a = .lt := by
  constructor
  · intro h
    have hs := hf.swap a b
    rw [h] at hs
    simpa [Ordering.swap] using hs.symm
  · intro h
    have hs := hf.swap b a
    rw [h] at hs
    simpa [Ordering.swap] using hs.symm

theorem LawCmp.eq_symm {f : α → α → Ordering} (hf : LawCmp f) {a b : α}
    (h : f a b = .eq) : f b a = .eq := by
  have hs := hf.swap a b
  rw [h] at hs
  simpa [Ordering.swap] using hs.symm

theorem LawCmp.refl {f : α → α → Ordering} (hf : LawCmp f) (a : α) :
    f a a = .eq := by
  have h := hf.swap a a
  cases hc : f a a with
  | lt => rw [hc] at h; simp [Ordering.swap] at h
  | eq => rfl
  | gt => rw [hc] at h; simp [Ordering.swap] at h

theorem LawCmp.ge_trans {f : α → α → Ordering} (hf : LawCmp f) {a b c : α}
    (h₁ : f a b ≠ .lt) (h₂ : f b c ≠ .lt) : f a c ≠ .lt := by
  intro hac
  cases hab : f a b with
  | lt => exact h₁ hab
  | eq => exact h₂ (hf.eq_lt (hf.eq_symm hab) hac)
  | gt => exact h₂ (hf.lt_trans (hf.gt_iff.mp hab) hac)

theorem LawCmp.ge_total {f : α → α → Ordering} (hf : LawCmp f) (a b : α) :
    f a b ≠ .lt ∨ f b a ≠ .lt := by
  cases h : f a b with
  | lt =>
    right
    have := hf.gt_iff.mpr h
    simp [this]
  | eq => left; simp [h]
  | gt => left; simp [h]

theorem LawCmp.comap {β : Type _} {f : β → β → Ordering} (hf : LawCmp f)
    (g : α → β) : LawCmp (fun a b => f (g a) (g b)) where
  swap a b := hf.swap (g a) (g b)
  lt_trans h₁ h₂ := hf.lt_trans h₁ h₂
  eq_lt h₁ h₂ := hf.eq_lt h₁ h₂
  lt_eq h₁ h₂ := hf.lt_eq h₁ h₂
  eq_trans h₁ h₂ := hf.eq_trans h₁ h₂

theorem LawCmp.then_law {f g : α → α → Ordering} (hf : LawCmp f)
    (hg : LawCmp g) : LawCmp (fun a b => (f a b).then (g a b)) where
  swap a b := by
    rw [ordThen_swap, hf.swap, hg.swap]
  lt_trans {a b c} h₁ h₂ := by
    rcases ordThen_eq_lt.mp h₁ with hf₁ | ⟨hf₁, hg₁⟩ <;>
      rcases ordThen_eq_lt.mp h₂ with hf₂ | ⟨hf₂, hg₂⟩
    · exact ordThen_eq_lt.mpr (Or.inl (hf.lt_trans hf₁ hf₂))
    · exact ordThen_eq_lt.mpr (Or.inl (hf.lt_eq hf₁ hf₂))
    · exact ordThen_eq_lt.mpr (Or.inl (hf.eq_lt hf₁ hf₂))
    · exact ordThen_eq_lt.mpr (Or.inr ⟨hf.eq_trans hf₁ hf₂, hg.lt_trans hg₁ hg₂⟩)
  eq_lt {a b c} h₁ h₂ := by
    obtain ⟨hf₁, hg₁⟩ := ordThen_eq_eq.mp h₁
    rcases ordThen_eq_lt.mp h₂ with hf₂ | ⟨hf₂, hg₂⟩
    · exact ordThen_eq_lt.mpr (Or.inl (hf.eq_lt hf₁ hf₂))
    · exact ordThen_eq_lt.mpr (Or.inr ⟨hf.eq_trans hf₁ hf₂, hg.eq_lt hg₁ hg₂⟩)
  lt_eq {a b c} h₁ h₂ := by
    obtain ⟨hf₂, hg₂⟩ := ordThen_eq_eq.mp h₂
    rcases ordThen_eq_lt.mp h₁ with hf₁ | ⟨hf₁, hg₁⟩
    · exact ordThen_eq_lt.mpr (Or.inl (hf.lt_eq hf₁ hf₂))
    · exact ordThen_eq_lt.mpr (Or.inr ⟨hf.eq_trans hf₁ hf₂, hg.lt_eq hg₁ hg₂⟩)
  eq_trans {a b c} h₁ h₂ := by
    obtain ⟨hf₁, hg₁⟩ := ordThen_eq_eq.mp h₁
    obtain ⟨hf₂, hg₂⟩ := ordThen_eq_eq.mp h₂
    exact ordThen_eq_eq.mpr ⟨hf.eq_trans hf₁ hf₂, hg.eq_trans hg₁ hg₂⟩

theorem natCmp_law : LawCmp (compare : Nat → Nat → Ordering) where
  swap a b := by
    rcases Nat.lt_trichotomy a b with h | h | h
    · simp [Nat.compare_eq_lt.mpr h, Nat.compare_eq_gt.mpr h, Ordering.swap]
    · simp [h, Nat.compare_eq_eq.mpr rfl, Ordering.swap]
    · simp [Nat.compare_eq_gt.mpr h, Nat.compare_eq_lt.mpr h, Ordering.swap]
  lt_trans h₁ h₂ :=
    Nat.compare_eq_lt.mpr (Nat.lt_trans (Nat.compare_eq_lt.mp h₁) (Nat.compare_eq_lt.mp h₂))
  eq_lt h₁ h₂ := by
    rw [Nat.compare_eq_eq.mp h₁]; exact h₂
  lt_eq h₁ h₂ := by
    rw [← Nat.compare_eq_eq.mp h₂]; exact h₁
  eq_trans h₁ h₂ := by
    rw [Nat.compare_eq_eq.mp h₁]; exact h₂

theorem charCmp_law : LawCmp charCmp := natCmp_law.comap Char.toNat

theorem listCmpWith_law {f : α → α → Ordering} (hf : LawCmp f) :
    LawCmp (listCmpWith f) where
  swap a b := by
    induction a generalizing b with
    | nil => cases b <;> simp [listCmpWith, Ordering.swap]
    | cons x xs ih =>
      cases b with
      | nil => simp [listCmpWith, Ordering.swap]
      | cons y ys =>
        show ((f x y).then (listCmpWith f xs ys)).swap = _
        rw [ordThen_swap, hf.swap, ih ys]
        rfl
  lt_trans {a b c} h₁ h₂ := by
    induction a generalizing b c with
    | nil =>
      cases b with
      | nil => simp [listCmpWith] at h₁
      | cons y ys =>
        cases c with
        | nil => simp [listCmpWith] at h₂
        | cons z zs => simp [listCmpWith]
    | cons x xs ih =>
      cases b with
      | nil => simp [listCmpWith] at h₁
      | cons y ys =>
        cases c with
        | nil => simp [listCmpWith] at h₂
        | cons z zs =>
          replace h₁ : (f x y).then (listCmpWith f xs ys) = .lt := h₁
          replace h₂ : (f y z).then (listCmpWith f ys zs) = .lt := h₂
          show (f x z).then (listCmpWith f xs zs) = .lt
          rcases ordThen_eq_lt.mp h₁ with hf₁ | ⟨hf₁, hg₁⟩ <;>
            rcases ordThen_eq_lt.mp h₂ with hf₂ | ⟨hf₂, hg₂⟩
          · exact ordThen_eq_lt.mpr (Or.inl (hf.lt_trans hf₁ hf₂))
          · exact ordThen_eq_lt.mpr (Or.inl (hf.lt_eq hf₁ hf₂))
          · exact ordThen_eq_lt.mpr (Or.inl (hf.eq_lt hf₁ hf₂))
          · exact ordThen_eq_lt.mpr (Or.inr ⟨hf.eq_trans hf₁ hf₂, ih hg₁ hg₂⟩)
  eq_lt {a b c} h₁ h₂ := by
    induction a generalizing b c with
    | nil =>
      cases b with
      | nil => exact h₂
      | cons y ys => simp [listCmpWith] at h₁
    | cons x xs ih =>
      cases b with
      | nil => simp [listCmpWith] at h₁
      | cons y ys =>
        cases c with
        | nil => simp [listCmpWith] at h₂
        | cons z zs =>
          replace h₁ : (f x y).then (listCmpWith f xs ys) = .eq := h₁
          replace h₂ : (f y z).then (listCmpWith f ys zs) = .lt := h₂
          show (f x z).then (listCmpWith f xs zs) = .lt
          obtain ⟨hf₁, hg₁⟩ := ordThen_eq_eq.mp h₁
          rcases ordThen_eq_lt.mp h₂ with hf₂ | ⟨hf₂, hg₂⟩
          · exact ordThen_eq_lt.mpr (Or.inl (hf.eq_lt hf₁ hf₂))
          · exact ordThen_eq_lt.mpr (Or.inr ⟨hf.eq_trans hf₁ hf₂, ih hg₁ hg₂⟩)
  lt_eq {a b c} h₁ h₂ := by
    induction a generalizing b c with
    | nil =>
      cases b with
      | nil => simp [listCmpWith] at h₁
      | cons y ys =>
        cases c with
        | nil => simp [listCmpWith] at h₂
        | cons z zs => simp [listCmpWith]
    | cons x xs ih =>
      cases b with
      | nil => simp [listCmpWith] at h₁
      | cons y ys =>
        cases c with
        | nil => simp [listCmpWith] at h₂
        | cons z zs =>
          replace h₁ : (f x y).then (listCmpWith f xs ys) = .lt := h₁
          replace h₂ : (f y z).then (listCmpWith f ys zs) = .eq := h₂
          show (f x z).then (listCmpWith f xs zs) = .lt
          obtain ⟨hf₂, hg₂⟩ := ordThen_eq_eq.mp h₂
          rcases ordThen_eq_lt.mp h₁ with hf₁ | ⟨hf₁, hg₁⟩
          · exact ordThen_eq_lt.mpr (Or.inl (hf.lt_eq hf₁ hf₂))
          · exact ordThen_eq_lt.mpr (Or.inr ⟨hf.eq_trans hf₁ hf₂, ih hg₁ hg₂⟩)
  eq_trans {a b c} h₁ h₂ := by
    induction a generalizing b c with
    | nil =>
      cases b with
      | nil => exact h₂
      | cons y ys => simp [listCmpWith] at h₁
    | cons x xs ih =>
      cases b with
      | nil => simp [listCmpWith] at h₁
      | cons y ys =>
        cases c with
        | nil => simp [listCmpWith] at h₂
        | cons z zs =>
          replace h₁ : (f x y).then (listCmpWith f xs ys) = .eq := h₁
          replace h₂ : (f y z).then (listCmpWith f ys zs) = .eq := h₂
          show (f x z).then (listCmpWith f xs zs) = .eq
          obtain ⟨hf₁, hg₁⟩ := ordThen_eq_eq.mp h₁
          obtain ⟨hf₂, hg₂⟩ := ordThen_eq_eq.mp h₂
          exact ordThen_eq_eq.mpr ⟨hf.eq_trans hf₁ hf₂, ih hg₁ hg₂⟩

theorem charListCmp_law : LawCmp charListCmp := listCmpWith_law charCmp_law

theorem charCmp_eq_iff {a b : Char} : charCmp a b = .eq ↔ a = b := by
  constructor
  · intro h
    have hn : a.toNat = b.toNat := Nat.compare_eq_eq.mp h
    calc a = Char.ofNat a.toNat := (Char.ofNat_toNat a).symm
    _ = Char.ofNat b.toNat := by rw [hn]
    _ = b := Char.ofNat_toNat b
  · intro h
    subst h
    exact Nat.compare_eq_eq.mpr rfl

theorem charListCmp_eq_iff {a b : List Char} : charListCmp a b = .eq ↔ a = b := by
  constructor
  · intro h
    induction a generalizing b with
    | nil =>
      cases b with
      | nil => rfl
      | cons y ys => simp [charListCmp, listCmpWith] at h
    | cons x xs ih =>
      cases b with
      | nil => simp [charListCmp, listCmpWith] at h
      | cons y ys =>
        replace h : (charCmp x y).then (charListCmp xs ys) = .eq := h
        obtain ⟨h₁, h₂⟩ := ordThen_eq_eq.mp h
        rw [charCmp_eq_iff.mp h₁, ih h₂]
  · intro h
    subst h
    exact charListCmp_law.refl a

end Packit

namespace Packit

/-! ## Semantic versions (model of Masterminds/semver v3 `Version`)

A parsed version keeps major, minor, patch and the list of pre-release
identifiers, each classified at parse time as numeric or alphanumeric
exactly as the library's validation admits them (numeric identifiers carry
no leading zero).  Build metadata is validated during parsing and then
discarded: the library ignores it in every comparison `service.go`
performs. -/

/-- One dot-separated pre-release identifier: purely numeric identifiers
compare numerically and are smaller than alphanumeric ones, which compare
byte-wise. -/
inductive PreId where
  | num (n : Nat)
  | str (s : List Char)
deriving DecidableEq, Repr

/-- Parsed semantic version. -/
structure SemVer where
  major : Nat
  minor : Nat
  patch : Nat
  pre : List PreId
deriving DecidableEq, Repr

instance : Inhabited SemVer := ⟨⟨0, 0, 0, []⟩⟩

/-- Value of a digit string, as strconv.ParseUint builds it. -/
def digitsVal (cs : List Char) : Nat := cs.foldl (fun n c => n * 10 + (c.toNat - 48)) 0

/-- Parse a mandatory all-digits segment. -/
def parseNatDigits (cs : List Char) : Option Nat :=
  if cs.isEmpty then none
  else if cs.all Char.isDigit then some (digitsVal cs) else none

/-- Split a character list on every occurrence of a separator character,
like strings.Split for a one-character separator. -/
def splitCharList (sep : Char) : List Char → List (List Char)
  | [] => [[]]
  | c :: rest =>
    if c = sep then [] :: splitCharList sep rest
    else
      match splitCharList sep rest with
      | [] => [[c]]
      | g :: gs => (c :: g) :: gs

/-- Characters the semver grammar admits inside pre-release and metadata
identifiers: ASCII letters, digits and hyphen. -/
def isIdentC (c : Char) : Bool := c.isDigit || c.isAlpha || c = '-'

/-- Classify one pre-release identifier as the library's validation does:
nonempty; all-digit identifiers must not start with a redundant zero and
become numeric; otherwise only letters, digits and hyphens are allowed. -/
def classifyPre (cs : List Char) : Option PreId :=
  if cs.isEmpty then none
  else if cs.all Char.isDigit then
    if cs.length > 1 && cs.head? = some '0' then none
    else some (.num (digitsVal cs))
  else if cs.all isIdentC then some (.str cs) else none

/-- Parse the dot-separated pre-release identifier list. -/
def parsePreIds (cs : List Char) : Option (List PreId) :=
  (splitCharList '.' cs).mapM classifyPre

/-- Validate build metadata (dot-separated, nonempty identifier parts);
its content is discarded after validation. -/
def validMetadata (cs : List Char) : Bool :=
  (splitCharList '.' cs).all (fun p => !p.isEmpty && p.all isIdentC)

/-- Parse the numeric-and-pre-release portion of a version: one to three
dot-separated digit segments, missing minor/patch defaulting to zero, then
an optional pre-release introduced by the first hyphen. -/
def newVersionMain (main : List Char) : Option SemVer :=
  let nums := main.takeWhile (fun c => c ≠ '-')
  let rest := main.dropWhile (fun c => c ≠ '-')
  let preIds? : Option (List PreId) :=
    match rest with
    | [] => some []
    | _ :: t => parsePreIds t
  match preIds? with
  | none => none
  | some preIds =>
    match (splitCharList '.' nums).mapM parseNatDigits with
    | some [a] => some ⟨a, 0, 0, preIds⟩
    | some [a, b] => some ⟨a, b, 0, preIds⟩
    | some [a, b, c] => some ⟨a, b, c, preIds⟩
    | _ => none

/-- Model of semver.NewVersion: optional leading `v`, one to three numeric
segments, optional `-` pre-release and `+` metadata, anchored to the whole
string; returns none exactly when the library reports Invalid Semantic
Version. -/
def newVersionL (cs0 : List Char) : Option SemVer :=
  let cs := if cs0.head? = some 'v' then cs0.tail else cs0
  match splitCharList '+' cs with
  | [main] => newVersionMain main
  | [main, meta] => if validMetadata meta then newVersionMain main else none
  | _ => none

/-- String-level entry point of the version parser. -/
def newVersion (s : String) : Option SemVer := newVersionL s.toList

/-- Comparison of single pre-release identifiers (numeric before
alphanumeric, numeric by value, alphanumeric byte-wise). -/
def preIdCmp : PreId → PreId → Ordering
  | .num a, .num b => compare a b
  | .num _, .str _ => .lt
  | .str _, .num _ => .gt
  | .str a, .str b => charListCmp a b

/-- Lexicographic comparison of pre-release identifier lists; exhausting one
list first makes it smaller, matching the library's padding with empty
parts. -/
def preListCmp : List PreId → List PreId → Ordering := listCmpWith preIdCmp

/-- Pre-release comparison at the version level: a version without
pre-release has higher precedence than any with one. -/
def preCmp : List PreId → List PreId → Ordering
  | [], [] => .eq
  | [], _ :: _ => .gt
  | _ :: _, [] => .lt
  | a :: as, b :: bs => preListCmp (a :: as) (b :: bs)

/-- Model of Version.Compare: major, then minor, then patch, then
pre-release precedence. -/
def semverCmp (a b : SemVer) : Ordering :=
  ((compare a.major b.major).then
    ((compare a.minor b.minor).then
      ((compare a.patch b.patch).then (preCmp a.pre b.pre))))

/-- Model of Version.LessThan. -/
def semverLessThan (a b : SemVer) : Bool := semverCmp a b == .lt

/-- Model of Version.GreaterThan. -/
def semverGreaterThan (a b : SemVer) : Bool := semverCmp a b == .gt

/-- Model of Version.Equal (metadata already discarded). -/
def semverEq (a b : SemVer) : Bool := semverCmp a b == .eq

theorem preIdCmp_law : LawCmp preIdCmp where
  swap a b := by
    cases a with
    | num x =>
      cases b with
      | num y => exact natCmp_law.swap x y
      | str y => rfl
    | str x =>
      cases b with
      | num y => rfl
      | str y => exact charListCmp_law.swap x y
  lt_trans {a b c} h₁ h₂ := by
    cases a with
    | num x =>
      cases b with
      | num y =>
        cases c with
        | num z => exact natCmp_law.lt_trans h₁ h₂
        | str z => rfl
      | str y =>
        cases c with
        | num z => exact Ordering.noConfusion h₂
        | str z => rfl
    | str x =>
      cases b with
      | num y => exact Ordering.noConfusion h₁
      | str y =>
        cases c with
        | num z => exact Ordering.noConfusion h₂
        | str z => exact charListCmp_law.lt_trans h₁ h₂
  eq_lt {a b c} h₁ h₂ := by
    cases a with
    | num x =>
      cases b with
      | num y =>
        cases c with
        | num z => exact natCmp_law.eq_lt h₁ h₂
        | str z => rfl
      | str y => exact Ordering.noConfusion h₁
    | str x =>
      cases b with
      | num y => exact Ordering.noConfusion h₁
      | str y =>
        cases c with
        | num z => exact Ordering.noConfusion h₂
        | str z => exact charListCmp_law.eq_lt h₁ h₂
  lt_eq {a b c} h₁ h₂ := by
    cases a with
    | num x =>
      cases b with
      | num y =>
        cases c with
        | num z => exact natCmp_law.lt_eq h₁ h₂
        | str z => exact Ordering.noConfusion h₂
      | str y =>
        cases c with
        | num z => exact Ordering.noConfusion h₂
        | str z => rfl
    | str x =>
      cases b with
      | num y => exact Ordering.noConfusion h₁
      | str y =>
        cases c with
        | num z => exact Ordering.noConfusion h₂
        | str z => exact charListCmp_law.lt_eq h₁ h₂
  eq_trans {a b c} h₁ h₂ := by
    cases a with
    | num x =>
      cases b with
      | num y =>
        cases c with
        | num z => exact natCmp_law.eq_trans h₁ h₂
        | str z => exact Ordering.noConfusion h₂
      | str y => exact Ordering.noConfusion h₁
    | str x =>
      cases b with
      | num y => exact Ordering.noConfusion h₁
      | str y =>
        cases c with
        | num z => exact Ordering.noConfusion h₂
        | str z => exact charListCmp_law.eq_trans h₁ h₂

theorem preListCmp_law : LawCmp preListCmp := listCmpWith_law preIdCmp_law

theorem preCmp_law : LawCmp preCmp where
  swap a b := by
    cases a with
    | nil => cases b <;> rfl
    | cons x xs =>
      cases b with
      | nil => rfl
      | cons y ys => exact preListCmp_law.swap (x :: xs) (y :: ys)
  lt_trans {a b c} h₁ h₂ := by
    cases a with
    | nil => cases b <;> simp [preCmp] at h₁
    | cons x xs =>
      cases b with
      | nil => cases c <;> simp [preCmp] at h₂
      | cons y ys =>
        cases c with
        | nil => rfl
        | cons z zs => exact preListCmp_law.lt_trans h₁ h₂
  eq_lt {a b c} h₁ h₂ := by
    cases a with
    | nil =>
      cases b with
      | nil => cases c <;> simp [preCmp] at h₂ ⊢
      | cons y ys => simp [preCmp] at h₁
    | cons x xs =>
      cases b with
      | nil => simp [preCmp] at h₁
      | cons y ys =>
        cases c with
        | nil => rfl
        | cons z zs => exact preListCmp_law.eq_lt h₁ h₂
  lt_eq {a b c} h₁ h₂ := by
    cases a with
    | nil => cases b <;> simp [preCmp] at h₁
    | cons x xs =>
      cases b with
      | nil => cases c <;> simp [preCmp] at h₂ ⊢
      | cons y ys =>
        cases c with
        | nil => simp [preCmp] at h₂
        | cons z zs => exact preListCmp_law.lt_eq h₁ h₂
  eq_trans {a b c} h₁ h₂ := by
    cases a with
    | nil =>
      cases b with
      | nil => cases c <;> simp [preCmp] at h₂ ⊢
      | cons y ys => simp [preCmp] at h₁
    | cons x xs =>
      cases b with
      | nil => simp [preCmp] at h₁
      | cons y ys =>
        cases c with
        | nil => simp [preCmp] at h₂
        | cons z zs => exact preListCmp_law.eq_trans h₁ h₂

theorem semverCmp_law : LawCmp semverCmp :=
  LawCmp.then_law (natCmp_law.comap SemVer.major)
    (LawCmp.then_law (natCmp_law.comap SemVer.minor)
      (LawCmp.then_law (natCmp_law.comap SemVer.patch)
        (preCmp_law.comap SemVer.pre)))

end Packit

namespace Packit

/-! ## Version constraints (model of Masterminds/semver v3 `Constraints`)

A constraint string is split on `||` into groups; inside a group,
comma/whitespace-separated units each consist of an optional operator and a
version that may use `x`/`X`/`*` wildcards or omit minor/patch segments
(recorded in the dirty flags).  A version satisfies the constraint when some
group's units all accept it.  Hyphen ranges (`A - B`) are outside the
modelled fragment: the model rejects them where the library would rewrite
them first. -/

/-- Comparison operators of the constraint language (`=`/empty, `!=`, `>`,
`<`, `>=`/`=>`, `<=`/`=<`, `~`/`~>`, `^`). -/
inductive CmpOp where
  | eqOp | neqOp | gtOp | ltOp | geOp | leOp | tildeOp | caretOp
deriving DecidableEq, Repr

/-- One parsed comparison unit: operator, comparison version (wildcard and
missing segments already zeroed), and the library's dirty flags. -/
structure ConstraintUnit where
  op : CmpOp
  con : SemVer
  dirty : Bool
  minorDirty : Bool
  patchDirty : Bool
deriving DecidableEq, Repr

/-- Whitespace characters of the regexp class used between tokens. -/
def isSpaceC (c : Char) : Bool :=
  c = ' ' || c = '\t' || c = '\n' || c = '\r' || c = '\x0c'

/-- Separators between constraint units: whitespace or comma. -/
def isSepC (c : Char) : Bool := isSpaceC c || c = ','

/-- Operator recognition at the head of a unit: two-character operators
first, then one-character ones, else the empty operator (equality). Returns
the operator and how many characters it consumed. -/
def readOpSpec : List Char → CmpOp × Nat
  | '<' :: '=' :: _ => (.leOp, 2)
  | '=' :: '<' :: _ => (.leOp, 2)
  | '>' :: '=' :: _ => (.geOp, 2)
  | '=' :: '>' :: _ => (.geOp, 2)
  | '!' :: '=' :: _ => (.neqOp, 2)
  | '~' :: '>' :: _ => (.tildeOp, 2)
  | '~' :: _ => (.tildeOp, 1)
  | '^' :: _ => (.caretOp, 1)
  | '<' :: _ => (.ltOp, 1)
  | '>' :: _ => (.gtOp, 1)
  | '=' :: _ => (.eqOp, 1)
  | _ => (.eqOp, 0)

/-- Wildcard segment test (`x`, `X` or `*`), as the library's isX. -/
def isWildcard (cs : List Char) : Bool := cs = ['x'] || cs = ['X'] || cs = ['*']

/-- Parse one dot segment of a constraint version: wildcard yields no value,
digits yield a value, anything else is a syntax error. -/
def parseSeg (cs : List Char) : Option (Option Nat) :=
  if isWildcard cs then some none
  else (parseNatDigits cs).map some

/-- Build the constraint unit from the parsed segments, mirroring the
library's dirty-flag cascade: wildcard major clears everything; a missing or
wildcard minor sets minorDirty; a missing or wildcard patch sets patchDirty;
three explicit segments are clean. -/
def buildUnit (op : CmpOp) (segs : List (Option Nat)) (preIds : List PreId) :
    Option ConstraintUnit :=
  match segs with
  | [none] => some ⟨op, ⟨0, 0, 0, preIds⟩, true, false, false⟩
  | [some a] => some ⟨op, ⟨a, 0, 0, preIds⟩, true, true, false⟩
  | [none, _] => some ⟨op, ⟨0, 0, 0, preIds⟩, true, false, false⟩
  | [some a, none] => some ⟨op, ⟨a, 0, 0, preIds⟩, true, true, false⟩
  | [some a, some b] => some ⟨op, ⟨a, b, 0, preIds⟩, true, false, true⟩
  | [none, _, _] => some ⟨op, ⟨0, 0, 0, preIds⟩, true, false, false⟩
  | [some a, none, _] => some ⟨op, ⟨a, 0, 0, preIds⟩, true, true, false⟩
  | [some a, some b, none] => some ⟨op, ⟨a, b, 0, preIds⟩, true, false, true⟩
  | [some a, some b, some c] => some ⟨op, ⟨a, b, c, preIds⟩, false, false, false⟩
  | _ => none

/-- Parse the main (non-metadata) part of one unit's version text. -/
def parseUnitMain (op : CmpOp) (main : List Char) : Option ConstraintUnit :=
  let nums := main.takeWhile (fun c => c ≠ '-')
  let rest := main.dropWhile (fun c => c ≠ '-')
  let preIds? : Option (List PreId) :=
    match rest with
    | [] => some []
    | _ :: t => parsePreIds t
  match preIds? with
  | none => none
  | some preIds =>
    match (splitCharList '.' nums).mapM parseSeg with
    | none => none
    | some segs => buildUnit op segs preIds

/-- Parse one unit's version token (optional leading `v`, optional build
metadata after `+`, validated and dropped). -/
def parseUnitVersion (op : CmpOp) (tok0 : List Char) : Option ConstraintUnit :=
  let tok := if tok0.head? = some 'v' then tok0.tail else tok0
  match splitCharList '+' tok with
  | [main] => parseUnitMain op main
  | [main, meta] => if validMetadata meta then parseUnitMain op main else none
  | _ => none

/-- Decompose the text at the head of a unit: the operator, the version
token (the following non-separator run after optional whitespace), and the
remaining text. -/
def unitSplit (l : List Char) : CmpOp × List Char × List Char :=
  let k := (readOpSpec l).2
  let r₂ := (l.drop k).dropWhile isSpaceC
  ((readOpSpec l).1, r₂.takeWhile (fun x => !isSepC x), r₂.dropWhile (fun x => !isSepC x))

theorem length_dropWhile_le (p : α → Bool) (l : List α) :
    (l.dropWhile p).length ≤ l.length := by
  have hsplit : l.takeWhile p ++ l.dropWhile p = l := by simp
  conv_rhs => rw [← hsplit]
  rw [List.length_append]
  omega

theorem length_dropWhile_lt (p : α → Bool) (l : List α)
    (h : l.takeWhile p ≠ []) : (l.dropWhile p).length < l.length := by
  have hsplit : l.takeWhile p ++ l.dropWhile p = l := by simp
  conv_rhs => rw [← hsplit]
  rw [List.length_append]
  have := List.length_pos.mpr h
  omega

theorem unitSplit_lt (l : List Char) (h : (unitSplit l).2.1 ≠ []) :
    (unitSplit l).2.2.length < l.length := by
  have h' : (((l.drop (readOpSpec l).2).dropWhile isSpaceC).takeWhile
      (fun x => !isSepC x)) ≠ [] := h
  show (((l.drop (readOpSpec l).2).dropWhile isSpaceC).dropWhile
      (fun x => !isSepC x)).length < l.length
  calc (((l.drop (readOpSpec l).2).dropWhile isSpaceC).dropWhile
      (fun x => !isSepC x)).length
      < ((l.drop (readOpSpec l).2).dropWhile isSpaceC).length :=
        length_dropWhile_lt _ _ h'
    _ ≤ (l.drop (readOpSpec l).2).length := length_dropWhile_le _ _
    _ ≤ l.length := by rw [List.length_drop]; omega

/-- Tokenize one `||`-group into its comparison units: skip separators, read
an operator, optional whitespace, then a version token; fail on any token
the version grammar rejects.  The fuel argument only bounds the recursion
(the remaining text shrinks at every step); the wrapper below supplies the
text's length, which `unitSplit_lt` shows is always sufficient. -/
def tokenizeUnitsFuel : Nat → List Char → Option (List ConstraintUnit)
  | _, [] => some []
  | 0, _ :: _ => none
  | fuel + 1, c :: rest =>
    if isSepC c then tokenizeUnitsFuel fuel rest
    else
      match unitSplit (c :: rest) with
      | (op, tok, r₃) =>
        if tok = [] then none
        else
          match parseUnitVersion op tok with
          | none => none
          | some u =>
            match tokenizeUnitsFuel fuel r₃ with
            | none => none
            | some us => some (u :: us)

/-- Tokenizer entry point. -/
def tokenizeUnits (l : List Char) : Option (List ConstraintUnit) :=
  tokenizeUnitsFuel l.length l

/-- Split a constraint string on `||`, as strings.Split does. -/
def splitOrs : List Char → List (List Char)
  | [] => [[]]
  | '|' :: '|' :: rest => [] :: splitOrs rest
  | c :: rest =>
    match splitOrs rest with
    | [] => [[c]]
    | g :: gs => (c :: g) :: gs

/-- Parsed form of a whole constraint expression: a disjunction of
conjunctions of units. -/
abbrev Constraints := List (List ConstraintUnit)

/-- Model of semver.NewConstraint: every `||`-group must tokenize into at
least one unit. -/
def newConstraintL (cs : List Char) : Option Constraints :=
  (splitOrs cs).mapM (fun g => do
    let us ← tokenizeUnits g
    if us.isEmpty then none else some us)

/-- String-level entry point of the constraint parser. -/
def newConstraint (s : String) : Option Constraints := newConstraintL s.toList

/-! ### Constraint checking -/

/-- Pre-release guard shared by every operator: a version carrying a
pre-release only matches units whose comparison version also carries one. -/
def preGuardOk (v : SemVer) (c : ConstraintUnit) : Bool :=
  !(!v.pre.isEmpty && c.con.pre.isEmpty)

/-- Tilde check: at least the comparison version, within the same major (and
same minor unless the minor was dirty); an all-zero clean-flag comparison
version accepts everything. -/
def checkTilde (v : SemVer) (c : ConstraintUnit) : Bool :=
  if semverLessThan v c.con then false
  else if c.con.major = 0 ∧ c.con.minor = 0 ∧ c.con.patch = 0 ∧
      c.minorDirty = false ∧ c.patchDirty = false then true
  else if v.major ≠ c.con.major then false
  else if v.minor ≠ c.con.minor ∧ c.minorDirty = false then false
  else true

/-- Caret check: at least the comparison version and, when the major is
positive (or was a bare major), within the same major; for major zero the
stability window narrows to the leftmost nonzero (or dirty) segment. -/
def checkCaret (v : SemVer) (c : ConstraintUnit) : Bool :=
  if semverLessThan v c.con then false
  else if 0 < c.con.major ∨ c.minorDirty = true then decide (v.major = c.con.major)
  else if 0 < c.con.minor ∨ c.patchDirty = true then
    decide (v.major = c.con.major ∧ v.minor = c.con.minor)
  else decide (v.major = c.con.major ∧ v.minor = c.con.minor ∧ v.patch = c.con.patch)

/-- Equality check that degrades to a tilde match when the comparison
version had wildcard or missing segments. -/
def checkTildeOrEqual (v : SemVer) (c : ConstraintUnit) : Bool :=
  if c.dirty then checkTilde v c else semverEq v c.con

/-- Inequality check with the library's segment-wise treatment of dirty
comparison versions. -/
def checkNotEqual (v : SemVer) (c : ConstraintUnit) : Bool :=
  if c.dirty then
    if v.major ≠ c.con.major then true
    else if v.minor ≠ c.con.minor ∧ c.minorDirty = false then true
    else if c.minorDirty then false
    else if v.patch ≠ c.con.patch ∧ c.patchDirty = false then true
    else if c.patchDirty then false
    else !semverEq v c.con
  else !semverEq v c.con

/-- Strict greater-than with the library's special treatment of bare-major
and bare-minor comparison versions. -/
def checkGreaterThan (v : SemVer) (c : ConstraintUnit) : Bool :=
  if c.dirty = false then semverGreaterThan v c.con
  else if c.con.major < v.major then true
  else if v.major < c.con.major then false
  else if c.minorDirty then false
  else if c.patchDirty then decide (c.con.minor < v.minor)
  else semverGreaterThan v c.con

/-- Strict less-than is a plain comparison against the zero-filled
comparison version. -/
def checkLessThan (v : SemVer) (c : ConstraintUnit) : Bool := semverLessThan v c.con

/-- At-least is a plain comparison against the zero-filled comparison
version. -/
def checkGTE (v : SemVer) (c : ConstraintUnit) : Bool := !semverLessThan v c.con

/-- At-most widens across the dirty segments of the comparison version. -/
def checkLTE (v : SemVer) (c : ConstraintUnit) : Bool :=
  if c.dirty = false then !semverGreaterThan v c.con
  else if c.con.major < v.major then false
  else if v.major = c.con.major ∧ c.con.minor < v.minor ∧ c.minorDirty = false then false
  else true

/-- Check of one unit: the pre-release guard, then the operator's test. -/
def checkUnit (v : SemVer) (c : ConstraintUnit) : Bool :=
  if preGuardOk v c = false then false
  else
    match c.op with
    | .eqOp => checkTildeOrEqual v c
    | .neqOp => checkNotEqual v c
    | .gtOp => checkGreaterThan v c
    | .ltOp => checkLessThan v c
    | .geOp => checkGTE v c
    | .leOp => checkLTE v c
    | .tildeOp => checkTilde v c
    | .caretOp => checkCaret v c

/-- Conjunction over one group's units. -/
def checkUnits (v : SemVer) (us : List ConstraintUnit) : Bool := us.all (checkUnit v)

/-- Model of Constraints.Check: disjunction over groups. -/
def constraintsCheck (cs : Constraints) (v : SemVer) : Bool :=
  cs.any (checkUnits v)

end Packit

namespace Packit

/-! ## The postal Resolve model (`postal/service.go`, `Service.Resolve`)

The catalog parsing step (`parseBuildpack`, an external collaborator per the
spec) is factored out: the model receives the ordered dependency list and
the default-version string it would return, and performs the remaining
steps of `Resolve` exactly: default normalization, pessimistic-operator
rewrite, constraint parsing, the filter/parse/check loop, the
no-compatible-versions failure message, and the descending sort.  Go's
sort.Slice is an unspecified comparison sort; it is modelled with a stable
merge sort over the same comparator, and the theorems below rely only on
comparator facts (maximality of the returned head) that hold for any
comparison sort. -/

/-- Modelled from the spec: the postal Dependency record (defined in
postal/dependency.go, outside src/) with identifier, semantic-version
string, stack set, source URI, expected SHA256 digest and optional
deprecation timestamp. -/
structure Dependency where
  id : String
  version : String
  depStacks : List String
  uri : String
  sha256 : String
  deprecationDate : Option String := none
deriving DecidableEq, Repr, Inhabited

/-- Modelled from the spec: stacksInclude (helper outside src/) tests
whether a record's stack set contains the requested stack. -/
def stacksInclude (ss : List String) (stack : String) : Bool :=
  ss.contains stack

/-- Normalization of the requested version (service.go lines 65-74): empty
becomes default, and default becomes the catalog's declared default when
present, else the wildcard. -/
def normalizeVersion (defaultVersion version : String) : String :=
  let v := if version = "" then "default" else version
  if v = "default" then (if defaultVersion ≠ "" then defaultVersion else "*") else v

/-- Test for an occurrence of the two-character pattern of the pessimistic
operator anywhere in the string, as regexp MatchString does. -/
def containsTildeGt : List Char → Bool
  | [] => false
  | '~' :: '>' :: _ => true
  | _ :: rest => containsTildeGt rest

/-- Removal of every occurrence of the pessimistic operator, as
regexp ReplaceAllString with the empty replacement does. -/
def stripTildeGt : List Char → List Char
  | [] => []
  | '~' :: '>' :: rest => stripTildeGt rest
  | c :: rest => c :: stripTildeGt rest

/-- Pessimistic-operator rewrite (service.go lines 76-89): when the version
contains the operator, strip it everywhere, count the dot-separated parts of
the remainder, and prefix a tilde for exactly three parts, else a caret. -/
def pessimisticRewrite (version : String) : String :=
  let cs := version.toList
  if containsTildeGt cs then
    let res := stripTildeGt cs
    if (splitCharList '.' res).length = 3 then String.mk ('~' :: res)
    else String.mk ('^' :: res)
  else version

/-- Hexadecimal digit characters, lowercase. -/
def hexDigit (n : Nat) : Char :=
  if n < 10 then Char.ofNat (48 + n) else Char.ofNat (87 + n)

/-- Two-digit lowercase hex of a byte. -/
def hexByte (n : Nat) : List Char := [hexDigit (n / 16 % 16), hexDigit (n % 16)]

/-- Quoting of one character inside a Go %q verb (ASCII fragment of
strconv.Quote). -/
def goQuoteChar (c : Char) : List Char :=
  if c = '"' then ['\\', '"']
  else if c = '\\' then ['\\', '\\']
  else if c = '\n' then ['\\', 'n']
  else if c = '\t' then ['\\', 't']
  else if c = '\r' then ['\\', 'r']
  else if 32 ≤ c.toNat ∧ c.toNat ≤ 126 then [c]
  else '\\' :: 'x' :: hexByte c.toNat

/-- Model of the %q verb of fmt (strconv.Quote) on ASCII strings. -/
def goQuote (s : String) : String :=
  String.mk ('"' :: (s.toList.flatMap goQuoteChar ++ ['"']))

/-- The no-compatible-versions failure message of Resolve (service.go lines
116-121), built with %q on the identifier and constraint and a
comma-space join of the supported versions. -/
def noCompatibleMessage (id version : String) (supported : List String) : String :=
  "failed to satisfy " ++ goQuote id ++ " dependency version constraint " ++
    goQuote version ++ ": no compatible versions. Supported versions are: [" ++
    String.intercalate ", " supported ++ "]"

/-- The filter/parse/check loop of Resolve (service.go lines 97-113):
records with another id or stack are skipped; a filtered record whose
version does not parse aborts with the version-syntax error; otherwise the
record joins the compatible list when the constraint accepts its version,
and its version string always joins the supported list. -/
def collectLoop (c : Constraints) (id stack : String) :
    List Dependency → Except String (List Dependency × List String)
  | [] => .ok ([], [])
  | d :: rest =>
    if d.id ≠ id ∨ stacksInclude d.depStacks stack = false then collectLoop c id stack rest
    else
      match newVersion d.version with
      | none => .error "Invalid Semantic Version"
      | some sv =>
        match collectLoop c id stack rest with
        | .error e => .error e
        | .ok (comp, sup) =>
          .ok ((if constraintsCheck c sv then d :: comp else comp), d.version :: sup)

/-- Parse of an already-validated version, as semver.MustParse inside the
sort comparator re-parses the loop's versions. -/
def mustParseVersion (s : String) : SemVer := (newVersion s).getD default

/-- The descending comparator of the final sort: record one sorts before
record two when its version is not below the other's. -/
def depGreaterEq (d₁ d₂ : Dependency) : Bool :=
  !(semverCmp (mustParseVersion d₁.version) (mustParseVersion d₂.version) == .lt)

/-- The sort order of Resolve's final sort, as a decidable relation. -/
def depGERel (d₁ d₂ : Dependency) : Prop := depGreaterEq d₁ d₂ = true

instance : DecidableRel depGERel := fun _ _ => instDecidableEqBool _ _

/-- Model of Service.Resolve from the collaborator outputs onward. -/
def resolveFrom (dependencies : List Dependency) (defaultVersion : String)
    (id version stack : String) : Except String Dependency :=
  let version₂ := pessimisticRewrite (normalizeVersion defaultVersion version)
  match newConstraint version₂ with
  | none => .error ("improper constraint: " ++ version₂)
  | some c =>
    match collectLoop c id stack dependencies with
    | .error e => .error e
    | .ok (compatibleVersions, supportedVersions) =>
      if compatibleVersions.isEmpty then
        .error (noCompatibleMessage id version₂ supportedVersions)
      else
        .ok ((compatibleVersions.insertionSort depGERel).headI)

/-- The id-and-stack filter of the catalog, for stating properties of the
loop. -/
def filteredDeps (dependencies : List Dependency) (id stack : String) :
    List Dependency :=
  dependencies.filter (fun d => d.id == id && stacksInclude d.depStacks stack)

theorem depGE_iff {d₁ d₂ : Dependency} : depGreaterEq d₁ d₂ = true ↔
    semverCmp (mustParseVersion d₁.version) (mustParseVersion d₂.version) ≠ .lt := by
  cases hc : semverCmp (mustParseVersion d₁.version) (mustParseVersion d₂.version) <;>
    simp [depGreaterEq, hc] <;> decide

theorem depGE_trans : ∀ (a b c : Dependency), depGreaterEq a b = true →
    depGreaterEq b c = true → depGreaterEq a c = true := by
  intro a b c h₁ h₂
  exact depGE_iff.mpr (semverCmp_law.ge_trans (depGE_iff.mp h₁) (depGE_iff.mp h₂))

theorem depGE_total : ∀ (a b : Dependency),
    (depGreaterEq a b || depGreaterEq b a) = true := by
  intro a b
  rcases semverCmp_law.ge_total (mustParseVersion a.version) (mustParseVersion b.version)
    with h | h
  · simp [depGE_iff.mpr h]
  · simp [depGE_iff.mpr h]

theorem depGE_refl (a : Dependency) : depGreaterEq a a = true := by
  refine depGE_iff.mpr ?_
  rw [semverCmp_law.refl]
  simp

theorem sort_head_max (l : List Dependency) (h : l ≠ []) :
    (l.insertionSort depGERel).headI ∈ l ∧
    ∀ d ∈ l, depGERel ((l.insertionSort depGERel).headI) d := by
  haveI : IsTotal Dependency depGERel := ⟨fun a b => by
    rcases Bool.or_eq_true_iff.mp (depGE_total a b) with hh | hh
    · exact Or.inl hh
    · exact Or.inr hh⟩
  haveI : IsTrans Dependency depGERel := ⟨fun a b c => depGE_trans a b c⟩
  have hperm := List.perm_insertionSort depGERel l
  have hsorted := List.sorted_insertionSort depGERel l
  have hne : l.insertionSort depGERel ≠ [] := by
    intro hnil
    rw [hnil] at hperm
    exact h (hperm.symm.eq_nil)
  obtain ⟨x, xs, hx⟩ := List.exists_cons_of_ne_nil hne
  constructor
  · have : (l.insertionSort depGERel).headI ∈ l.insertionSort depGERel := by
      rw [hx]; exact List.mem_cons_self _ _
    exact hperm.mem_iff.mp this
  · intro d hd
    have hd' : d ∈ l.insertionSort depGERel := hperm.mem_iff.mpr hd
    rw [hx] at hd' hsorted ⊢
    simp only [List.headI]
    rcases List.mem_cons.mp hd' with rfl | hmem
    · exact depGE_refl d
    · exact List.rel_of_pairwise_cons hsorted hmem

end Packit

namespace Packit

/-! ## The postal Deliver model (`postal/service.go`, `Service.Deliver`)

Deliver orchestrates the mapping-resolver lookup, the transport fetch, the
checksum-validating reader (cargo.ValidatedReader, outside src/ and
modelled by its outcome), decompression, and the validity check.  The
collaborators' behaviours are parameters; the model returns the call's
result together with the ordered trace of collaborator events, which makes
the sequencing facts (what ran, with which arguments, and what never ran)
provable. -/

/-- Observable collaborator events of one Deliver call, in order. -/
inductive DeliverEvent where
  | findMapping (sha : String) (bindingPath : String)
  | drop (root : String) (uri : String)
  | decompress (layerPath : String)
  | validCheck (sha : String)
deriving DecidableEq, Repr

/-- Behaviour of the collaborators during one Deliver call: the
binding-mapping lookup keyed by digest and search path, the transport fetch
keyed by root and uri, the decompression outcome of the fetched stream, and
the validity outcome of the checksum-validating reader for a given expected
digest. -/
structure DeliverWorld where
  findDependencyMapping : String → String → Except String String
  drop : String → String → Except String Unit
  decompressOutcome : Except String Unit
  validOutcome : String → Except String Bool

/-- Model of Service.Deliver (service.go lines 140-172): binding lookup
(failure: the fixed bindings message), URI override when the lookup returns
a non-empty URI, fetch (failure wrapped as failed-to-fetch), decompression
of the validating reader (failure returned verbatim, digest unchecked),
then the validity check (computation failure wrapped as
failed-to-validate, a mismatch reported as a checksum mismatch, whose
message formats the nil error exactly as fmt does). -/
def deliver (w : DeliverWorld) (dependency : Dependency)
    (cnbPath layerPath platformPath : String) :
    Except String Unit × List DeliverEvent :=
  let bindingPath := platformPath ++ "/bindings"
  let ev₀ := [DeliverEvent.findMapping dependency.sha256 bindingPath]
  match w.findDependencyMapping dependency.sha256 bindingPath with
  | .error _ => (.error "failure checking out the bindings", ev₀)
  | .ok dependencyMappingURI =>
    let dep :=
      if dependencyMappingURI ≠ "" then { dependency with uri := dependencyMappingURI }
      else dependency
    let ev₁ := ev₀ ++ [DeliverEvent.drop cnbPath dep.uri]
    match w.drop cnbPath dep.uri with
    | .error e => (.error ("failed to fetch dependency: " ++ e), ev₁)
    | .ok _ =>
      let ev₂ := ev₁ ++ [DeliverEvent.decompress layerPath]
      match w.decompressOutcome with
      | .error e => (.error e, ev₂)
      | .ok _ =>
        let ev₃ := ev₂ ++ [DeliverEvent.validCheck dep.sha256]
        match w.validOutcome dep.sha256 with
        | .error e => (.error ("failed to validate dependency: " ++ e), ev₃)
        | .ok ok =>
          if ok then (.ok (), ev₃)
          else (.error "checksum does not match: %!s(<nil>)", ev₃)

end Packit

namespace Packit

/-! ## SHA-256 (crypto/sha256 as used by the checksum calculator)

Bytes are `Nat` below 256, 32-bit words are `Nat` kept below `2 ^ 32` by
explicit reductions. -/

/-- Addition modulo `2 ^ 32`. -/
def wadd (a b : Nat) : Nat := (a + b) % 4294967296

/-- Right rotation of a 32-bit word. -/
def rotr (k n : Nat) : Nat := ((n >>> k) ||| (n <<< (32 - k))) % 4294967296

/-- Bitwise complement of a 32-bit word. -/
def bnot32 (n : Nat) : Nat := Nat.xor n 4294967295

/-- Message-schedule sigma functions and compression functions of SHA-256. -/
def smallSigma0 (x : Nat) : Nat := Nat.xor (rotr 7 x) (Nat.xor (rotr 18 x) (x >>> 3))

def smallSigma1 (x : Nat) : Nat := Nat.xor (rotr 17 x) (Nat.xor (rotr 19 x) (x >>> 10))

def bigSigma0 (x : Nat) : Nat := Nat.xor (rotr 2 x) (Nat.xor (rotr 13 x) (rotr 22 x))

def bigSigma1 (x : Nat) : Nat := Nat.xor (rotr 6 x) (Nat.xor (rotr 11 x) (rotr 25 x))

def chFn (x y z : Nat) : Nat := Nat.xor (Nat.land x y) (Nat.land (bnot32 x) z)

def majFn (x y z : Nat) : Nat :=
  Nat.xor (Nat.land x y) (Nat.xor (Nat.land x z) (Nat.land y z))

/-- SHA-256 round constants (FIPS 180-4, fractional parts of the cube
roots of the first 64 primes), in decimal. -/
def sha256K : List Nat :=
  [1116352408, 1899447441, 3049323471, 3921009573, 961987163, 1508970993,
   2453635748, 2870763221, 3624381080, 310598401, 607225278, 1426881987,
   1925078388, 2162078206, 2614888103, 3248222580, 3835390401, 4022224774,
   264347078, 604807628, 770255983, 1249150122, 1555081692, 1996064986,
   2554220882, 2821834349, 2952996808, 3210313671, 3336571891, 3584528711,
   113926993, 338241895, 666307205, 773529912, 1294757372, 1396182291,
   1695183700, 1986661051, 2177026350, 2456956037, 2730485921, 2820302411,
   3259730800, 3345764771, 3516065817, 3600352804, 4094571909, 275423344,
   430227734, 506948616, 659060556, 883997877, 958139571, 1322822218,
   1537002063, 1747873779, 1955562222, 2024104815, 2227730452, 2361852424,
   2428436474, 2756734187, 3204031479, 3329325298]

/-- SHA-256 initial hash words (fractional parts of the square roots of
the first 8 primes), in decimal. -/
def sha256H0 : List Nat :=
  [1779033703, 3144134277, 1013904242, 2773480762,
   1359893119, 2600822924, 528734635, 1541459225]

/-- Big-endian 32-bit words from bytes. -/
def bytesToWords : List Nat → List Nat
  | b0 :: b1 :: b2 :: b3 :: rest =>
    (((b0 * 256 + b1) * 256 + b2) * 256 + b3) :: bytesToWords rest
  | _ => []

/-- Big-endian eight-byte encoding of the bit length. -/
def lengthBytes (n : Nat) : List Nat :=
  (List.range 8).map (fun i => n >>> ((7 - i) * 8) % 256)

/-- Standard SHA-256 padding: a 0x80 byte, zeros to 56 mod 64, then the
bit length. -/
def padMessage (msg : List Nat) : List Nat :=
  let len := msg.length
  msg ++ 128 :: List.replicate ((119 - len % 64) % 64) 0 ++ lengthBytes (len * 8)

/-- Split into 64-byte blocks; the fuel argument only bounds the recursion
and the wrapper below supplies the list's length, which always suffices. -/
def chunks64Fuel : Nat → List Nat → List (List Nat)
  | _, [] => []
  | 0, _ :: _ => []
  | fuel + 1, c :: rest => (c :: rest).take 64 :: chunks64Fuel fuel ((c :: rest).drop 64)

/-- Split into 64-byte blocks. -/
def chunks64 (l : List Nat) : List (List Nat) := chunks64Fuel l.length l

/-- Extend the 16 schedule words to 64 by count further words. -/
def extendSchedule (w : List Nat) : Nat → List Nat
  | 0 => w
  | n + 1 =>
    let i := w.length
    extendSchedule
      (w ++ [wadd (wadd (smallSigma1 (w.getD (i - 2) 0)) (w.getD (i - 7) 0))
                  (wadd (smallSigma0 (w.getD (i - 15) 0)) (w.getD (i - 16) 0))]) n

/-- One compression round on the eight working words. -/
def compressStep (st : List Nat) (kw : Nat × Nat) : List Nat :=
  match st with
  | [a, b, c, d, e, f, g, h] =>
    let t1 := wadd (wadd (wadd h (bigSigma1 e)) (wadd (chFn e f g) kw.1)) kw.2
    let t2 := wadd (bigSigma0 a) (majFn a b c)
    [wadd t1 t2, a, b, c, wadd d t1, e, f, g]
  | other => other

/-- Process one 64-byte block. -/
def processChunk (hs : List Nat) (chunk : List Nat) : List Nat :=
  let w := extendSchedule (bytesToWords chunk) 48
  let st := (List.zip sha256K w).foldl compressStep hs
  (List.zip hs st).map (fun p => wadd p.1 p.2)

/-- SHA-256 of a byte list, as 32 digest bytes. -/
def sha256 (msg : List Nat) : List Nat :=
  ((chunks64 (padMessage msg)).foldl processChunk sha256H0).flatMap
    (fun wd => [wd >>> 24 % 256, wd >>> 16 % 256, wd >>> 8 % 256, wd % 256])

/-- Lowercase hex encoding of bytes, as hex.EncodeToString produces. -/
def hexEncode (bs : List Nat) : String := String.mk (bs.flatMap hexByte)

/-! ## The checksum calculator model (`fs/checksum_calculator.go`)

`Sum` over a directory walks the tree collecting every regular file, has a
worker pool hash each file, collects the per-file results in completion
order, sorts them by path, and hashes the concatenation of the raw digest
bytes.  The model represents the collected results as an arbitrary
permutation of the canonical per-file digests (covering both walk order and
worker completion order) and performs the final sort and digest.  Paths are
compared byte-wise as Go's `<` on strings does. -/

/-- Canonical per-file digests: what the workers compute for each (path,
content) pair, independent of scheduling. -/
def fileDigests (files : List (String × List Nat)) : List (String × List Nat) :=
  files.map (fun f => (f.1, sha256 f.2))

/-- The sort comparator of getParallelChecksums: ascending by path. -/
def pathLe (a b : String × List Nat) : Bool :=
  !(charListCmp a.1.toList b.1.toList == .gt)

/-- The same sort order as a decidable relation. -/
def pathLeRel (a b : String × List Nat) : Prop := pathLe a b = true

instance : DecidableRel pathLeRel := fun _ _ => instDecidableEqBool _ _

/-- Final digest of Sum on a directory, given the collected per-file
results: sort lexicographically by path, feed the raw digest bytes in that
order into one final SHA-256, hex-encode. -/
def sumDirFromResults (results : List (String × List Nat)) : String :=
  hexEncode (sha256 ((results.insertionSort pathLeRel).flatMap (fun f => f.2)))

/-- The staged scratch directory of SumMultiple: input tree number i is
copied byte-for-byte under the i-th generated name; a staged file's path is
that name followed by the file's path suffix inside its tree (empty for a
single-file input).  The scratch directory prefix itself is common to all
entries and cannot affect their relative order, so it is omitted. -/
def sumMultipleStaged (inputs : List (List (String × List Nat)))
    (names : List String) : List (String × List Nat) :=
  (inputs.zip names).flatMap (fun p => p.1.map (fun f => (p.2 ++ f.1, f.2)))

/-- Model of SumMultiple on error-free runs: stage the inputs under the
generated names, then Sum the scratch directory. -/
def sumMultipleModel (inputs : List (List (String × List Nat)))
    (names : List String) : String :=
  sumDirFromResults (fileDigests (sumMultipleStaged inputs names))

end Packit

namespace Packit

/-! ## The vacation archive extractors (tar and zip `Decompress`)

Entry paths are modelled as segment lists (the tar walker splits the stored
name on the separator, and rejoining under the destination is
concatenation).  Each entry maps to the ordered filesystem actions the
walker performs for it; a small filesystem-state interpreter gives the
actions their operational meaning (directory creation with recorded modes,
file creation that requires the parent directory, symlink creation).  The
format-specific error wrapping of I/O failures is not distinguished
here beyond the failing action. -/

/-- Kinds of archive entries the walkers distinguish. -/
inductive EntryKind where
  | dir | reg | symlink | other
deriving DecidableEq, Repr

/-- A tar header entry: path segments of the stored name, type flag,
permission bits, content bytes, and the stored symlink target. -/
structure TarEntry where
  name : List String
  kind : EntryKind
  mode : Nat
  content : List Nat
  linkname : String
deriving DecidableEq, Repr

/-- A zip central-directory entry: path segments, kind derived from the
entry's FileInfo (directory, symlink mode bit, or regular), permission
bits, and content bytes (a symlink's content is its target). -/
structure ZipEntry where
  name : List String
  kind : EntryKind
  mode : Nat
  content : List Nat
deriving DecidableEq, Repr

/-- Filesystem actions the extractors perform. -/
inductive FsAction where
  | mkdirAll (path : List String) (perm : Nat)
  | createFile (path : List String) (perm : Nat) (content : List Nat)
  | symlink (target : String) (path : List String)
deriving DecidableEq, Repr

/-- Value of os.ModePerm (0o777). -/
def osModePerm : Nat := 511

/-- Actions of the tar walker for one entry (service.go lines 953-989):
skip when no segments survive stripping; otherwise create the directory
recursively with os.ModePerm, open/truncate the regular file with the
header's mode and copy its bytes, create the symlink verbatim, and ignore
any other entry kind.  No parent directory is created for a file entry. -/
def tarEntryActions (components : Nat) (destination : List String)
    (e : TarEntry) : List FsAction :=
  if e.name.length ≤ components then []
  else
    let path := destination ++ e.name.drop components
    match e.kind with
    | .dir => [.mkdirAll path osModePerm]
    | .reg => [.createFile path e.mode e.content]
    | .symlink => [.symlink e.linkname path]
    | .other => []

/-- The tar walker over a whole entry stream. -/
def tarDecompressActions (components : Nat) (destination : List String)
    (entries : List TarEntry) : List FsAction :=
  entries.flatMap (tarEntryActions components destination)

/-- Actions of the zip walker for one entry (service.go lines 1067-1113):
directories are created recursively with os.ModePerm; symlinks point at
their content; any other entry first has its parent directory created
recursively with os.ModePerm and is then created with the entry's mode. -/
def zipEntryActions (destination : List String) (e : ZipEntry) : List FsAction :=
  let path := destination ++ e.name
  match e.kind with
  | .dir => [.mkdirAll path osModePerm]
  | .symlink => [.symlink (String.mk (e.content.map Char.ofNat)) path]
  | _ => [.mkdirAll path.dropLast osModePerm, .createFile path e.mode e.content]

/-- The zip walker over the central directory. -/
def zipDecompressActions (destination : List String)
    (entries : List ZipEntry) : List FsAction :=
  entries.flatMap (zipEntryActions destination)

/-- Filesystem state: directories with their creation modes, regular files
with mode and content, symlinks with their targets. -/
structure FsState where
  dirs : List (List String × Nat)
  files : List (List String × Nat × List Nat)
  links : List (List String × String)
deriving DecidableEq, Repr

/-- The pristine destination: only the destination root (the empty path)
exists. -/
def initialFs : FsState := ⟨[([], osModePerm)], [], []⟩

/-- Directory existence test. -/
def hasDir (st : FsState) (p : List String) : Bool := st.dirs.any (fun d => d.1 == p)

/-- All prefixes of a path, the root included. -/
def prefixesOf : List String → List (List String)
  | [] => [[]]
  | s :: rest => [] :: (prefixesOf rest).map (fun p => s :: p)

/-- Model of os.MkdirAll: create every missing prefix directory with the
given permission; existing directories keep their recorded mode. -/
def mkdirAllState (st : FsState) (p : List String) (perm : Nat) : FsState :=
  { st with dirs :=
      st.dirs ++ ((prefixesOf p).filter (fun q => !hasDir st q)).map (fun q => (q, perm)) }

/-- One filesystem action: directory creation always succeeds; file and
symlink creation require the parent directory to exist already. -/
def applyAction (st : FsState) : FsAction → Except String FsState
  | .mkdirAll p perm => .ok (mkdirAllState st p perm)
  | .createFile p perm content =>
    if hasDir st p.dropLast then
      .ok { st with files := st.files.filter (fun f => !(f.1 == p)) ++ [(p, perm, content)] }
    else .error "failed to create archived file"
  | .symlink target p =>
    if hasDir st p.dropLast then
      .ok { st with links := st.links ++ [(p, target)] }
    else .error "failed to extract symlink"

/-- Run a list of actions, stopping at the first failure. -/
def runActions (st : FsState) : List FsAction → Except String FsState
  | [] => .ok st
  | a :: rest =>
    match applyAction st a with
    | .error e => .error e
    | .ok st' => runActions st' rest

/-- Recorded mode of a directory. -/
def dirMode (st : FsState) (p : List String) : Option Nat :=
  (st.dirs.find? (fun d => d.1 == p)).map (fun d => d.2)

/-- Recorded mode and content of a regular file. -/
def fileEntry (st : FsState) (p : List String) : Option (Nat × List Nat) :=
  (st.files.find? (fun f => f.1 == p)).map (fun f => f.2)

end Packit

namespace Packit

/-! ## Properties of the Resolve loop -/

theorem mustParse_eq {s : String} {sv : SemVer} (h : newVersion s = some sv) :
    mustParseVersion s = sv := by
  simp [mustParseVersion, h]

theorem filteredDeps_cons_pos {d : Dependency} {rest : List Dependency}
    {id stack : String} (hb : (d.id == id && stacksInclude d.depStacks stack) = true) :
    filteredDeps (d :: rest) id stack = d :: filteredDeps rest id stack := by
  simp [filteredDeps, List.filter_cons, hb]

theorem filteredDeps_cons_neg {d : Dependency} {rest : List Dependency}
    {id stack : String} (hb : (d.id == id && stacksInclude d.depStacks stack) = false) :
    filteredDeps (d :: rest) id stack = filteredDeps rest id stack := by
  simp [filteredDeps, List.filter_cons, hb]

theorem loop_skip_iff {d : Dependency} {id stack : String} :
    (d.id ≠ id ∨ stacksInclude d.depStacks stack = false) ↔
    (d.id == id && stacksInclude d.depStacks stack) = false := by
  constructor
  · rintro (h | h)
    · simp [h]
    · simp [h]
  · intro h
    rcases Bool.and_eq_false_iff.mp h with h' | h'
    · left
      intro he
      rw [he] at h'
      simp at h'
    · right
      exact h'

theorem collectLoop_ok (c : Constraints) (id stack : String) (deps : List Dependency)
    (h : ∀ d ∈ filteredDeps deps id stack, (newVersion d.version).isSome) :
    collectLoop c id stack deps =
      .ok ((filteredDeps deps id stack).filter
            (fun d => constraintsCheck c (mustParseVersion d.version)),
           (filteredDeps deps id stack).map (fun d => d.version)) := by
  induction deps with
  | nil => simp [collectLoop, filteredDeps]
  | cons d rest ih =>
    by_cases hb : (d.id == id && stacksInclude d.depStacks stack) = true
    · have hfd : filteredDeps (d :: rest) id stack = d :: filteredDeps rest id stack :=
        filteredDeps_cons_pos hb
      rw [hfd] at h
      have hd : (newVersion d.version).isSome := h d (List.mem_cons_self _ _)
      obtain ⟨sv, hsv⟩ := Option.isSome_iff_exists.mp hd
      have hrest := ih (fun d' hd' => h d' (List.mem_cons_of_mem _ hd'))
      have hcond : ¬(d.id ≠ id ∨ stacksInclude d.depStacks stack = false) := by
        rw [loop_skip_iff, hb]
        exact fun hh => Bool.noConfusion hh
      rw [hfd]
      simp only [collectLoop, if_neg hcond, hsv, hrest]
      simp only [List.filter_cons, List.map_cons, mustParse_eq hsv]
    · rw [Bool.not_eq_true] at hb
      have hfd : filteredDeps (d :: rest) id stack = filteredDeps rest id stack :=
        filteredDeps_cons_neg hb
      rw [hfd] at h ⊢
      have hcond : d.id ≠ id ∨ stacksInclude d.depStacks stack = false :=
        loop_skip_iff.mpr hb
      simp only [collectLoop, if_pos hcond]
      exact ih h

theorem collectLoop_error (c : Constraints) (id stack : String)
    (deps : List Dependency)
    (h : ∃ d ∈ filteredDeps deps id stack, newVersion d.version = none) :
    collectLoop c id stack deps = .error "Invalid Semantic Version" := by
  induction deps with
  | nil => simp [filteredDeps] at h
  | cons d rest ih =>
    by_cases hb : (d.id == id && stacksInclude d.depStacks stack) = true
    · have hfd : filteredDeps (d :: rest) id stack = d :: filteredDeps rest id stack :=
        filteredDeps_cons_pos hb
      rw [hfd] at h
      have hcond : ¬(d.id ≠ id ∨ stacksInclude d.depStacks stack = false) := by
        rw [loop_skip_iff, hb]
        exact fun hh => Bool.noConfusion hh
      simp only [collectLoop, if_neg hcond]
      cases hsv : newVersion d.version with
      | none => rfl
      | some sv =>
        obtain ⟨d', hd', hbad⟩ := h
        rcases List.mem_cons.mp hd' with rfl | hmem
        · rw [hbad] at hsv
          exact Option.noConfusion hsv
        · rw [ih ⟨d', hmem, hbad⟩]
    · rw [Bool.not_eq_true] at hb
      have hfd : filteredDeps (d :: rest) id stack = filteredDeps rest id stack :=
        filteredDeps_cons_neg hb
      rw [hfd] at h
      have hcond : d.id ≠ id ∨ stacksInclude d.depStacks stack = false :=
        loop_skip_iff.mpr hb
      simp only [collectLoop, if_pos hcond]
      exact ih h

end Packit

namespace Packit

/-! ## Quoting helpers for the diagnostic message -/

/-- Strings whose characters print verbatim inside a %q quotation: printable
ASCII without the quote and backslash characters. -/
def plainQuotable (s : String) : Bool :=
  s.toList.all (fun c => 32 ≤ c.toNat && c.toNat ≤ 126 && c ≠ '"' && c ≠ '\\')

theorem goQuoteChar_plain {c : Char} (h32 : 32 ≤ c.toNat) (h126 : c.toNat ≤ 126)
    (hq : c ≠ '"') (hb : c ≠ '\\') : goQuoteChar c = [c] := by
  have hn : c ≠ '\n' := by
    intro he; rw [he] at h32; simp at h32
  have ht : c ≠ '\t' := by
    intro he; rw [he] at h32; simp at h32
  have hr : c ≠ '\r' := by
    intro he; rw [he] at h32; simp at h32
  unfold goQuoteChar
  rw [if_neg hq, if_neg hb, if_neg hn, if_neg ht, if_neg hr, if_pos ⟨h32, h126⟩]

theorem flatMap_goQuoteChar_plain {l : List Char}
    (h : ∀ c ∈ l, (32 ≤ c.toNat && c.toNat ≤ 126 && c ≠ '"' && c ≠ '\\') = true) :
    l.flatMap goQuoteChar = l := by
  induction l with
  | nil => rfl
  | cons c rest ih =>
    have hc := h c (List.mem_cons_self _ _)
    simp only [Bool.and_eq_true, decide_eq_true_eq] at hc
    rw [List.flatMap_cons,
      goQuoteChar_plain hc.1.1.1 hc.1.1.2 hc.1.2 hc.2,
      ih (fun c' hc' => h c' (List.mem_cons_of_mem _ hc'))]
    rfl

theorem goQuote_plain {s : String} (h : plainQuotable s = true) :
    goQuote s = "\"" ++ s ++ "\"" := by
  apply String.ext
  cases s with
  | mk data =>
    have hdata : data.flatMap goQuoteChar = data :=
      flatMap_goQuoteChar_plain (List.all_eq_true.mp h)
    show ('"' :: (data.flatMap goQuoteChar ++ ['"'])) = _
    rw [hdata]
    simp [String.data_append]

/-! ## Claims about Resolve -/

/-- C1: for every catalog, id, stack, and parseable version constraint, if at
least one record whose identifier equals the id and whose stack set contains
the stack satisfies the constraint (with every filtered record's version a
valid semantic version, as the data model requires), then Resolve returns a
compatible record whose version is maximal under semantic-version ordering
among the compatible records. -/
theorem resolve_returns_maximal_compatible
    (deps : List Dependency) (defaultVersion id version stack : String)
    (c : Constraints)
    (hc : newConstraint (pessimisticRewrite (normalizeVersion defaultVersion version)) =
      some c)
    (hparse : ∀ d ∈ filteredDeps deps id stack, (newVersion d.version).isSome)
    (hsat : ∃ d ∈ filteredDeps deps id stack,
      constraintsCheck c (mustParseVersion d.version) = true) :
    ∃ d, resolveFrom deps defaultVersion id version stack = .ok d ∧
      d ∈ filteredDeps deps id stack ∧
      constraintsCheck c (mustParseVersion d.version) = true ∧
      ∀ d' ∈ filteredDeps deps id stack,
        constraintsCheck c (mustParseVersion d'.version) = true →
        semverCmp (mustParseVersion d.version) (mustParseVersion d'.version) ≠ .lt := by
  have hloop := collectLoop_ok c id stack deps hparse
  have hne : (filteredDeps deps id stack).filter
      (fun d => constraintsCheck c (mustParseVersion d.version)) ≠ [] := by
    obtain ⟨d, hd, hchk⟩ := hsat
    intro hnil
    have hmem : d ∈ (filteredDeps deps id stack).filter
        (fun d => constraintsCheck c (mustParseVersion d.version)) :=
      List.mem_filter.mpr ⟨hd, hchk⟩
    rw [hnil] at hmem
    exact absurd hmem (List.not_mem_nil d)
  have hmax := sort_head_max _ hne
  refine ⟨(((filteredDeps deps id stack).filter
      (fun d => constraintsCheck c (mustParseVersion d.version))).insertionSort
        depGERel).headI, ?_, ?_, ?_, ?_⟩
  · simp only [resolveFrom, hc, hloop]
    rw [if_neg (by simp [List.isEmpty_iff, hne])]
  · exact (List.mem_filter.mp hmax.1).1
  · exact (List.mem_filter.mp hmax.1).2
  · intro d' hd' hchk'
    have hmem : d' ∈ (filteredDeps deps id stack).filter
        (fun d => constraintsCheck c (mustParseVersion d.version)) :=
      List.mem_filter.mpr ⟨hd', hchk'⟩
    exact depGE_iff.mp (hmax.2 d' hmem)

/-- Witness of the maximality claim on the catalog of the repository's own
test file: the 1.2.* constraint over versions 1.2.3 and 4.5.6. -/
theorem resolve_returns_maximal_compatible_witness :
    ∃ d, resolveFrom
        [⟨"some-entry", "1.2.3", ["some-stack"], "some-uri", "some-sha", none⟩,
         ⟨"some-entry", "4.5.6", ["some-stack"], "some-uri", "some-sha", none⟩]
        "" "some-entry" "1.2.*" "some-stack" = .ok d ∧
      d ∈ filteredDeps
        [⟨"some-entry", "1.2.3", ["some-stack"], "some-uri", "some-sha", none⟩,
         ⟨"some-entry", "4.5.6", ["some-stack"], "some-uri", "some-sha", none⟩]
        "some-entry" "some-stack" ∧
      constraintsCheck [[⟨CmpOp.eqOp, ⟨1, 2, 0, []⟩, true, false, true⟩]]
        (mustParseVersion d.version) = true ∧
      ∀ d' ∈ filteredDeps
        [⟨"some-entry", "1.2.3", ["some-stack"], "some-uri", "some-sha", none⟩,
         ⟨"some-entry", "4.5.6", ["some-stack"], "some-uri", "some-sha", none⟩]
        "some-entry" "some-stack",
        constraintsCheck [[⟨CmpOp.eqOp, ⟨1, 2, 0, []⟩, true, false, true⟩]]
          (mustParseVersion d'.version) = true →
        semverCmp (mustParseVersion d.version) (mustParseVersion d'.version) ≠ .lt :=
  resolve_returns_maximal_compatible _ _ _ _ _ _ (by decide) (by decide) (by decide)

/-- C6: with a parseable constraint, Resolve fails with the version-syntax
error as soon as any record matching id and stack has an unparsable version,
whatever the other records contain. -/
theorem resolve_fails_on_any_unparsable_filtered_version
    (deps : List Dependency) (defaultVersion id version stack : String)
    (c : Constraints)
    (hc : newConstraint (pessimisticRewrite (normalizeVersion defaultVersion version)) =
      some c)
    (hbad : ∃ d ∈ filteredDeps deps id stack, newVersion d.version = none) :
    resolveFrom deps defaultVersion id version stack =
      .error "Invalid Semantic Version" := by
  simp only [resolveFrom, hc, collectLoop_error c id stack deps hbad]

/-- Witness of the strict version-syntax failure: the unparsable record is
not the one satisfying the constraint, and another record does satisfy it,
yet Resolve fails. -/
theorem resolve_fails_on_any_unparsable_filtered_version_witness :
    resolveFrom
      [⟨"some-entry", "1.2.3", ["some-stack"], "some-uri", "some-sha", none⟩,
       ⟨"some-entry", "this is super not semver", ["some-stack"], "some-uri",
        "some-sha", none⟩]
      "" "some-entry" "1.2.3" "some-stack" = .error "Invalid Semantic Version" :=
  resolve_fails_on_any_unparsable_filtered_version _ _ _ _ _
    [[⟨CmpOp.eqOp, ⟨1, 2, 3, []⟩, false, false, false⟩]] (by decide) (by decide)

end Packit

namespace Packit

/-- C5 (amended): when every filtered record's version parses but none
satisfies the constraint, Resolve fails with exactly the diagnostic message
enumerating, in catalog order, the versions of all records matching id and
stack, where the quoted constraint is the effective constraint string after
default normalization and the pessimistic rewrite (equal to the requested
string whenever neither applies). -/
theorem resolve_no_compatible_message_exact
    (deps : List Dependency) (defaultVersion id version stack : String)
    (c : Constraints)
    (hc : newConstraint (pessimisticRewrite (normalizeVersion defaultVersion version)) =
      some c)
    (hparse : ∀ d ∈ filteredDeps deps id stack, (newVersion d.version).isSome)
    (hnone : ∀ d ∈ filteredDeps deps id stack,
      constraintsCheck c (mustParseVersion d.version) = false)
    (hid : plainQuotable id = true)
    (heff : plainQuotable
      (pessimisticRewrite (normalizeVersion defaultVersion version)) = true) :
    resolveFrom deps defaultVersion id version stack =
      .error ("failed to satisfy \"" ++ id ++
        "\" dependency version constraint \"" ++
        pessimisticRewrite (normalizeVersion defaultVersion version) ++
        "\": no compatible versions. Supported versions are: [" ++
        String.intercalate ", " ((filteredDeps deps id stack).map (fun d => d.version)) ++
        "]") := by
  have hloop := collectLoop_ok c id stack deps hparse
  have hnil : (filteredDeps deps id stack).filter
      (fun d => constraintsCheck c (mustParseVersion d.version)) = [] := by
    rw [List.filter_eq_nil_iff]
    intro d hd
    simp [hnone d hd]
  simp only [resolveFrom, hc, hloop, hnil]
  rw [if_pos (show ([] : List Dependency).isEmpty = true from rfl)]
  simp only [noCompatibleMessage, goQuote_plain hid, goQuote_plain heff]
  congr 1
  apply String.ext
  simp only [String.data_append, List.append_assoc, List.cons_append, List.nil_append]

/-- Witness of the exact diagnostic message, on the repository test
catalog's filtered versions 1.2.3 and 4.5.6 with the unsatisfiable
constraint 9.9.9. -/
theorem resolve_no_compatible_message_exact_witness :
    resolveFrom
      [⟨"some-entry", "1.2.3", ["some-stack"], "some-uri", "some-sha", none⟩,
       ⟨"some-entry", "4.5.6", ["some-stack"], "some-uri", "some-sha", none⟩]
      "" "some-entry" "9.9.9" "some-stack" =
      .error ("failed to satisfy \"some-entry\" dependency version constraint \"9.9.9\": no compatible versions. Supported versions are: [1.2.3, 4.5.6]") := by
  have h := resolve_no_compatible_message_exact
    [⟨"some-entry", "1.2.3", ["some-stack"], "some-uri", "some-sha", none⟩,
     ⟨"some-entry", "4.5.6", ["some-stack"], "some-uri", "some-sha", none⟩]
    "" "some-entry" "9.9.9" "some-stack"
    [[⟨CmpOp.eqOp, ⟨9, 9, 9, []⟩, false, false, false⟩]]
    (by decide) (by decide) (by decide) (by decide) (by decide)
  rw [h]
  rfl

/-- Counterexample to C5 as stated: with the requested constraint string
containing the pessimistic operator, the message quotes the rewritten
constraint, not the requested one, so the claimed message (with the
requested string) is not what Resolve returns. -/
theorem resolve_message_not_requested_constraint :
    resolveFrom [⟨"a", "1.2.3", ["s"], "u", "h", none⟩] "" "a" "~> 9.9.9" "s" =
      .error "failed to satisfy \"a\" dependency version constraint \"~ 9.9.9\": no compatible versions. Supported versions are: [1.2.3]" ∧
    resolveFrom [⟨"a", "1.2.3", ["s"], "u", "h", none⟩] "" "a" "~> 9.9.9" "s" ≠
      .error "failed to satisfy \"a\" dependency version constraint \"~> 9.9.9\": no compatible versions. Supported versions are: [1.2.3]" := by
  constructor
  · rfl
  · intro h
    have : ("failed to satisfy \"a\" dependency version constraint \"~ 9.9.9\": no compatible versions. Supported versions are: [1.2.3]" : String) =
        "failed to satisfy \"a\" dependency version constraint \"~> 9.9.9\": no compatible versions. Supported versions are: [1.2.3]" := by
      have h' : resolveFrom [⟨"a", "1.2.3", ["s"], "u", "h", none⟩] "" "a" "~> 9.9.9" "s" =
          .error "failed to satisfy \"a\" dependency version constraint \"~ 9.9.9\": no compatible versions. Supported versions are: [1.2.3]" := rfl
      rw [h'] at h
      exact Except.error.inj h
    exact absurd this (by decide)

end Packit

namespace Packit

theorem deliver_events_shape
    (w : DeliverWorld) (dep : Dependency) (cnbPath layerPath platformPath m : String)
    (hmap : w.findDependencyMapping dep.sha256 (platformPath ++ "/bindings") = .ok m) :
    ∃ tail, (deliver w dep cnbPath layerPath platformPath).2 =
      DeliverEvent.findMapping dep.sha256 (platformPath ++ "/bindings") ::
      DeliverEvent.drop cnbPath (if m ≠ "" then m else dep.uri) :: tail ∧
      ∀ ev ∈ tail, ev = DeliverEvent.decompress layerPath ∨
        ev = DeliverEvent.validCheck dep.sha256 := by
  have huri : (if m ≠ "" then { dep with uri := m } else dep).uri =
      (if m ≠ "" then m else dep.uri) := by
    by_cases hm : m = "" <;> simp [hm]
  have hsha : (if m ≠ "" then { dep with uri := m } else dep).sha256 = dep.sha256 := by
    by_cases hm : m = "" <;> simp [hm]
  simp only [deliver]
  rw [hmap]
  simp only [huri, hsha]
  cases hdrop : w.drop cnbPath (if m ≠ "" then m else dep.uri) with
  | error e => exact ⟨[], by simp⟩
  | ok u =>
    cases hdec : w.decompressOutcome with
    | error e => exact ⟨[DeliverEvent.decompress layerPath], by simp⟩
    | ok u' =>
      cases hval : w.validOutcome dep.sha256 with
      | error e =>
        exact ⟨[DeliverEvent.decompress layerPath,
          DeliverEvent.validCheck dep.sha256], by simp⟩
      | ok ok =>
        cases ok
        · exact ⟨[DeliverEvent.decompress layerPath,
            DeliverEvent.validCheck dep.sha256], by simp⟩
        · exact ⟨[DeliverEvent.decompress layerPath,
            DeliverEvent.validCheck dep.sha256], by simp⟩

/-- C3: in a run whose binding lookup and fetch succeed, a decompression
failure is returned verbatim and the digest validity check never runs; after
successful decompression, a digest-computation failure is returned as the
validation error and a mismatch as the checksum-mismatch error. -/
theorem deliver_digest_check_only_after_decompress
    (w : DeliverWorld) (dep : Dependency) (cnbPath layerPath platformPath m : String)
    (hmap : w.findDependencyMapping dep.sha256 (platformPath ++ "/bindings") = .ok m)
    (hdrop : w.drop cnbPath (if m ≠ "" then m else dep.uri) = .ok ()) :
    (∀ e, w.decompressOutcome = .error e →
      (deliver w dep cnbPath layerPath platformPath).1 = .error e ∧
      ∀ sha, DeliverEvent.validCheck sha ∉
        (deliver w dep cnbPath layerPath platformPath).2) ∧
    (w.decompressOutcome = .ok () →
      (∀ e, w.validOutcome dep.sha256 = .error e →
        (deliver w dep cnbPath layerPath platformPath).1 =
          .error ("failed to validate dependency: " ++ e)) ∧
      (w.validOutcome dep.sha256 = .ok false →
        (deliver w dep cnbPath layerPath platformPath).1 =
          .error "checksum does not match: %!s(<nil>)")) := by
  by_cases hm : m = ""
  · subst hm
    simp only [ne_eq, not_true_eq_false, ite_false] at hdrop
    constructor
    · intro e hdec
      constructor
      · simp [deliver, hmap, hdrop, hdec]
      · intro sha
        simp [deliver, hmap, hdrop, hdec]
    · intro hdec
      constructor
      · intro e hval
        simp [deliver, hmap, hdrop, hdec, hval]
      · intro hval
        simp [deliver, hmap, hdrop, hdec, hval]
  · simp only [ne_eq, hm, not_false_eq_true, ite_true] at hdrop
    constructor
    · intro e hdec
      constructor
      · simp [deliver, hmap, hdrop, hdec, hm]
      · intro sha
        simp [deliver, hmap, hdrop, hdec, hm]
    · intro hdec
      constructor
      · intro e hval
        simp [deliver, hmap, hdrop, hdec, hval, hm]
      · intro hval
        simp [deliver, hmap, hdrop, hdec, hval, hm]

/-- Witness of the digest-check ordering claim at a concrete world where
decompression fails, and at one where it succeeds with a digest mismatch. -/
theorem deliver_digest_check_only_after_decompress_witness :
    ((deliver
        ⟨fun _ _ => .ok "", fun _ _ => .ok (), .error "broken tar", fun _ => .ok true⟩
        ⟨"a", "1.0.0", ["s"], "u", "shasum", none⟩ "cnb" "layer" "plat").1 =
      .error "broken tar" ∧
      ∀ sha, DeliverEvent.validCheck sha ∉
        (deliver
          ⟨fun _ _ => .ok "", fun _ _ => .ok (), .error "broken tar", fun _ => .ok true⟩
          ⟨"a", "1.0.0", ["s"], "u", "shasum", none⟩ "cnb" "layer" "plat").2) ∧
    ((deliver
        ⟨fun _ _ => .ok "", fun _ _ => .ok (), .ok (), fun _ => .ok false⟩
        ⟨"a", "1.0.0", ["s"], "u", "shasum", none⟩ "cnb" "layer" "plat").1 =
      .error "checksum does not match: %!s(<nil>)") := by
  refine ⟨?_, ?_⟩
  · exact (deliver_digest_check_only_after_decompress
      ⟨fun _ _ => .ok "", fun _ _ => .ok (), .error "broken tar", fun _ => .ok true⟩
      ⟨"a", "1.0.0", ["s"], "u", "shasum", none⟩ "cnb" "layer" "plat" ""
      (by rfl) (by rfl)).1 "broken tar" rfl
  · exact ((deliver_digest_check_only_after_decompress
      ⟨fun _ _ => .ok "", fun _ _ => .ok (), .ok (), fun _ => .ok false⟩
      ⟨"a", "1.0.0", ["s"], "u", "shasum", none⟩ "cnb" "layer" "plat" ""
      (by rfl) (by rfl)).2 rfl).2 rfl

/-- C4: the binding-mapping lookup's non-empty result replaces only the
fetched URI: every fetch event carries the override URI, while every digest
validity check still carries the dependency's original SHA256 (and an empty
lookup result leaves the fetched URI unchanged). -/
theorem deliver_override_changes_uri_not_digest
    (w : DeliverWorld) (dep : Dependency) (cnbPath layerPath platformPath m : String)
    (hmap : w.findDependencyMapping dep.sha256 (platformPath ++ "/bindings") = .ok m) :
    (m ≠ "" →
      DeliverEvent.drop cnbPath m ∈ (deliver w dep cnbPath layerPath platformPath).2 ∧
      ∀ root uri, DeliverEvent.drop root uri ∈
        (deliver w dep cnbPath layerPath platformPath).2 → uri = m) ∧
    (m = "" →
      DeliverEvent.drop cnbPath dep.uri ∈
        (deliver w dep cnbPath layerPath platformPath).2) ∧
    (∀ sha, DeliverEvent.validCheck sha ∈
      (deliver w dep cnbPath layerPath platformPath).2 → sha = dep.sha256) := by
  obtain ⟨tail, hev, htail⟩ :=
    deliver_events_shape w dep cnbPath layerPath platformPath m hmap
  refine ⟨?_, ?_, ?_⟩
  · intro hm
    rw [hev]
    constructor
    · simp [hm]
    · intro root uri hmem
      rcases List.mem_cons.mp hmem with h | hmem'
      · exact absurd h (by simp)
      · rcases List.mem_cons.mp hmem' with h | hmem''
        · have := DeliverEvent.drop.inj h
          rw [this.2]
          simp [hm]
        · rcases htail _ hmem'' with h | h <;> exact absurd h (by simp)
  · intro hm
    rw [hev]
    simp [hm]
  · intro sha hmem
    rw [hev] at hmem
    rcases List.mem_cons.mp hmem with h | hmem'
    · exact absurd h (by simp)
    · rcases List.mem_cons.mp hmem' with h | hmem''
      · exact absurd h (by simp)
      · rcases htail _ hmem'' with h | h
        · exact absurd h (by simp)
        · exact (DeliverEvent.validCheck.inj h)

/-- Witness of the URI-override frame property at a world whose lookup
returns a non-empty mapping. -/
theorem deliver_override_changes_uri_not_digest_witness :
    (DeliverEvent.drop "cnb" "mapped.tgz" ∈
      (deliver ⟨fun _ _ => .ok "mapped.tgz", fun _ _ => .ok (), .ok (), fun _ => .ok true⟩
        ⟨"a", "1.0.0", ["s"], "orig.tgz", "shasum", none⟩ "cnb" "layer" "plat").2) ∧
    (∀ sha, DeliverEvent.validCheck sha ∈
      (deliver ⟨fun _ _ => .ok "mapped.tgz", fun _ _ => .ok (), .ok (), fun _ => .ok true⟩
        ⟨"a", "1.0.0", ["s"], "orig.tgz", "shasum", none⟩ "cnb" "layer" "plat").2 →
      sha = "shasum") := by
  have h := deliver_override_changes_uri_not_digest
    ⟨fun _ _ => .ok "mapped.tgz", fun _ _ => .ok (), .ok (), fun _ => .ok true⟩
    ⟨"a", "1.0.0", ["s"], "orig.tgz", "shasum", none⟩ "cnb" "layer" "plat" "mapped.tgz"
    (by rfl)
  exact ⟨(h.1 (by decide)).1, h.2.2⟩

end Packit

namespace Packit

/-! ## Operational facts about the filesystem interpreter -/

theorem self_mem_prefixesOf (l : List String) : l ∈ prefixesOf l := by
  induction l with
  | nil => simp [prefixesOf]
  | cons s rest ih =>
    simp only [prefixesOf, List.mem_cons]
    right
    exact List.mem_map.mpr ⟨rest, ih, rfl⟩

theorem hasDir_mkdirAllState_self (st : FsState) (q : List String) (perm : Nat) :
    hasDir (mkdirAllState st q perm) q = true := by
  unfold hasDir mkdirAllState
  rw [List.any_append]
  by_cases hq : hasDir st q
  · unfold hasDir at hq
    simp [hq]
  · rw [Bool.not_eq_true] at hq
    have hmem : q ∈ (prefixesOf q).filter (fun r => !hasDir st r) :=
      List.mem_filter.mpr ⟨self_mem_prefixesOf q, by simp [hq]⟩
    have : ((((prefixesOf q).filter (fun r => !hasDir st r)).map
        (fun r => (r, perm))).any (fun d => d.1 == q)) = true := by
      rw [List.any_eq_true]
      exact ⟨(q, perm), List.mem_map.mpr ⟨q, hmem, rfl⟩, by simp⟩
    simp [this]

theorem dirMode_mkdirAllState_self (st : FsState) (p : List String) (perm : Nat)
    (h : hasDir st p = false) :
    dirMode (mkdirAllState st p perm) p = some perm := by
  unfold dirMode mkdirAllState
  simp only
  rw [List.find?_append]
  have h1 : st.dirs.find? (fun d => d.1 == p) = none := by
    rw [List.find?_eq_none]
    intro x hx hbeq
    have hany : st.dirs.any (fun d => d.1 == p) = true :=
      List.any_eq_true.mpr ⟨x, hx, hbeq⟩
    unfold hasDir at h
    rw [h] at hany
    exact Bool.noConfusion hany
  rw [h1, Option.none_or, List.find?_map]
  have hmem : p ∈ (prefixesOf p).filter (fun r => !hasDir st r) :=
    List.mem_filter.mpr ⟨self_mem_prefixesOf p, by simp [h]⟩
  have hsome : (((prefixesOf p).filter (fun r => !hasDir st r)).find?
      ((fun d => d.1 == p) ∘ (fun r => (r, perm)))).isSome = true :=
    List.find?_isSome.mpr ⟨p, hmem, by simp⟩
  obtain ⟨q, hq⟩ := Option.isSome_iff_exists.mp hsome
  have hqp : q = p := by
    have := List.find?_some hq
    simpa using this
  rw [hq, hqp]
  rfl

theorem createFile_ok (st : FsState) (p : List String) (m : Nat) (c : List Nat)
    (h : hasDir st p.dropLast = true) :
    applyAction st (FsAction.createFile p m c) =
      .ok { st with files := st.files.filter (fun f => !(f.1 == p)) ++ [(p, m, c)] } ∧
    fileEntry { st with files := st.files.filter (fun f => !(f.1 == p)) ++ [(p, m, c)] } p =
      some (m, c) := by
  constructor
  · simp [applyAction, h]
  · unfold fileEntry
    simp only
    rw [List.find?_append]
    have h1 : (st.files.filter (fun f => !(f.1 == p))).find? (fun f => f.1 == p) = none := by
      rw [List.find?_eq_none]
      intro x hx hbeq
      have := (List.mem_filter.mp hx).2
      rw [hbeq] at this
      exact Bool.noConfusion this
    rw [h1, Option.none_or]
    simp [List.find?]

end Packit

namespace Packit

/-- C9 counterexample: a tar directory entry declaring mode 0o700 is created
with mode 0o777 (os.ModePerm), not its declared permission bits. -/
theorem tar_directory_mode_counterexample :
    (runActions initialFs
      (tarDecompressActions 0 [] [⟨["d"], EntryKind.dir, 448, [], ""⟩])).map
        (fun st => dirMode st ["d"]) = .ok (some 511) ∧ (511 : Nat) ≠ 448 := by
  constructor
  · rfl
  · decide

/-- C9 (amended): both walkers create directory entries recursively with
mode os.ModePerm regardless of the declared bits, while regular-file entries
are created with the entry's declared permission bits and content; a
directory created this way records mode os.ModePerm, and a created file
records exactly the declared mode and content. -/
theorem archive_entry_modes
    :
    (∀ comps dest (e : TarEntry), e.kind = .dir → comps < e.name.length →
      tarEntryActions comps dest e =
        [.mkdirAll (dest ++ e.name.drop comps) osModePerm]) ∧
    (∀ dest (e : ZipEntry), e.kind = .dir →
      zipEntryActions dest e = [.mkdirAll (dest ++ e.name) osModePerm]) ∧
    (∀ comps dest (e : TarEntry), e.kind = .reg → comps < e.name.length →
      tarEntryActions comps dest e =
        [.createFile (dest ++ e.name.drop comps) e.mode e.content]) ∧
    (∀ dest (e : ZipEntry), e.kind = .reg →
      zipEntryActions dest e =
        [.mkdirAll (dest ++ e.name).dropLast osModePerm,
         .createFile (dest ++ e.name) e.mode e.content]) ∧
    (∀ st p perm, hasDir st p = false →
      dirMode (mkdirAllState st p perm) p = some perm) ∧
    (∀ st p m c, hasDir st p.dropLast = true →
      (runActions st [FsAction.createFile p m c]).map (fun st' => fileEntry st' p) =
        .ok (some (m, c))) := by
  refine ⟨?_, ?_, ?_, ?_, ?_, ?_⟩
  · intro comps dest e hk hlt
    simp [tarEntryActions, hk, Nat.not_le.mpr hlt]
  · intro dest e hk
    simp [zipEntryActions, hk]
  · intro comps dest e hk hlt
    simp [tarEntryActions, hk, Nat.not_le.mpr hlt]
  · intro dest e hk
    simp [zipEntryActions, hk]
  · intro st p perm h
    exact dirMode_mkdirAllState_self st p perm h
  · intro st p m c h
    obtain ⟨hap, hfe⟩ := createFile_ok st p m c h
    simp [runActions, hap, hfe, Except.map]

/-- Witness of the amended mode claim at a concrete directory entry with
declared mode 0o700 and file entry with declared mode 0o644. -/
theorem archive_entry_modes_witness :
    tarEntryActions 0 [] ⟨["d"], EntryKind.dir, 448, [], ""⟩ =
      [FsAction.mkdirAll ["d"] 511] ∧
    tarEntryActions 0 [] ⟨["f"], EntryKind.reg, 420, [1, 2], ""⟩ =
      [FsAction.createFile ["f"] 420 [1, 2]] ∧
    dirMode (mkdirAllState initialFs ["d"] 511) ["d"] = some 511 ∧
    (runActions initialFs [FsAction.createFile ["f"] 420 [1, 2]]).map
      (fun st => fileEntry st ["f"]) = .ok (some (420, [1, 2])) := by
  refine ⟨?_, ?_, ?_, ?_⟩
  · exact archive_entry_modes.1 0 [] ⟨["d"], EntryKind.dir, 448, [], ""⟩ rfl (by decide)
  · exact archive_entry_modes.2.2.1 0 [] ⟨["f"], EntryKind.reg, 420, [1, 2], ""⟩ rfl
      (by decide)
  · exact archive_entry_modes.2.2.2.2.1 initialFs ["d"] 511 (by decide)
  · exact archive_entry_modes.2.2.2.2.2 initialFs ["f"] 420 [1, 2] (by decide)

/-- C10: for a regular-file zip entry the walker first creates the missing
parent directories, so its extraction succeeds from any starting state and
records the file; the tar walker opens a regular file's path directly
without creating parents, and a file action whose parent directory is
missing fails. -/
theorem zip_creates_parents_tar_does_not
    :
    (∀ dest (e : ZipEntry) st, e.kind = .reg →
      ∃ st', runActions st (zipEntryActions dest e) = .ok st' ∧
        fileEntry st' (dest ++ e.name) = some (e.mode, e.content)) ∧
    (∀ comps dest (e : TarEntry), e.kind = .reg → comps < e.name.length →
      tarEntryActions comps dest e =
        [.createFile (dest ++ e.name.drop comps) e.mode e.content] ∧
      ∀ a ∈ tarEntryActions comps dest e, ∀ p perm, a ≠ FsAction.mkdirAll p perm) ∧
    (∀ st p m c, hasDir st p.dropLast = false →
      runActions st [FsAction.createFile p m c] =
        .error "failed to create archived file") := by
  refine ⟨?_, ?_, ?_⟩
  · intro dest e st hk
    have hz : zipEntryActions dest e =
        [.mkdirAll (dest ++ e.name).dropLast osModePerm,
         .createFile (dest ++ e.name) e.mode e.content] := by
      simp [zipEntryActions, hk]
    have hparent : hasDir (mkdirAllState st (dest ++ e.name).dropLast osModePerm)
        ((dest ++ e.name).dropLast) = true :=
      hasDir_mkdirAllState_self st ((dest ++ e.name).dropLast) osModePerm
    obtain ⟨hap, hfe⟩ := createFile_ok
      (mkdirAllState st (dest ++ e.name).dropLast osModePerm)
      (dest ++ e.name) e.mode e.content hparent
    refine ⟨_, ?_, hfe⟩
    rw [hz]
    simp [runActions, applyAction, hparent]
  · intro comps dest e hk hlt
    have ht : tarEntryActions comps dest e =
        [.createFile (dest ++ e.name.drop comps) e.mode e.content] := by
      simp [tarEntryActions, hk, Nat.not_le.mpr hlt]
    refine ⟨ht, ?_⟩
    rw [ht]
    intro a ha p perm
    rcases List.mem_cons.mp ha with rfl | h
    · exact fun hh => FsAction.noConfusion hh
    · exact absurd h (List.not_mem_nil a)
  · intro st p m c h
    simp [runActions, applyAction, h]

/-- Witness of the parent-directory contrast: a single-file zip archive with
a nested path extracts from the pristine destination, while the same file as
a lone tar entry fails there. -/
theorem zip_creates_parents_tar_does_not_witness :
    (∃ st', runActions initialFs
        (zipEntryActions [] ⟨["a", "b"], EntryKind.reg, 420, [7]⟩) = .ok st' ∧
      fileEntry st' ["a", "b"] = some (420, [7])) ∧
    runActions initialFs [FsAction.createFile ["a", "b"] 420 [7]] =
      .error "failed to create archived file" := by
  constructor
  · exact zip_creates_parents_tar_does_not.1 [] ⟨["a", "b"], EntryKind.reg, 420, [7]⟩
      initialFs rfl
  · exact zip_creates_parents_tar_does_not.2.2 initialFs ["a", "b"] 420 [7] (by decide)

end Packit

namespace Packit

/-! ## Claims about the checksum calculator -/

set_option maxRecDepth 1000000 in
/-- C8 evidence: two SumMultiple runs over the same two single-file inputs,
differing only in the randomly generated scratch names, produce different
digests, because the names order the staged copies in the final sorted
hash.  This contradicts the intended determinism the sorting comment in
getParallelChecksums documents. -/
theorem sumMultiple_random_names_change_digest :
    sumMultipleModel [[("", [0])], [("", [1])]] ["aa", "bb"] ≠
      sumMultipleModel [[("", [0])], [("", [1])]] ["bb", "aa"] := by
  decide

theorem pathLe_iff {a b : String × List Nat} :
    pathLe a b = true ↔ charListCmp a.1.toList b.1.toList ≠ .gt := by
  unfold pathLe
  cases hc : charListCmp a.1.toList b.1.toList <;> decide

theorem pathLeRel_total : ∀ a b : String × List Nat, pathLeRel a b ∨ pathLeRel b a := by
  intro a b
  cases hc : charListCmp a.1.toList b.1.toList with
  | lt =>
    left
    refine pathLe_iff.mpr ?_
    rw [hc]
    decide
  | eq =>
    left
    refine pathLe_iff.mpr ?_
    rw [hc]
    decide
  | gt =>
    right
    refine pathLe_iff.mpr ?_
    rw [charListCmp_law.gt_iff.mp hc]
    decide

theorem pathLeRel_trans : ∀ a b c : String × List Nat,
    pathLeRel a b → pathLeRel b c → pathLeRel a c := by
  intro a b c h₁ h₂
  refine pathLe_iff.mpr ?_
  intro hgt
  have law := charListCmp_law
  have h₁' := pathLe_iff.mp h₁
  have h₂' := pathLe_iff.mp h₂
  have hca : charListCmp c.1.toList a.1.toList = .lt := law.gt_iff.mp hgt
  cases hab : charListCmp a.1.toList b.1.toList with
  | lt => exact h₂' (law.gt_iff.mpr (law.lt_trans hca hab))
  | eq => exact h₂' (law.gt_iff.mpr (law.lt_eq hca hab))
  | gt => exact h₁' hab

theorem stringOfToList_inj {s₁ s₂ : String} (h : s₁.toList = s₂.toList) : s₁ = s₂ :=
  String.ext h

theorem pathLe_antisymm {a b : String × List Nat}
    (hab : pathLeRel a b) (hba : pathLeRel b a) : a.1 = b.1 := by
  have hab' := pathLe_iff.mp hab
  have hba' := pathLe_iff.mp hba
  cases hc : charListCmp a.1.toList b.1.toList with
  | lt => exact absurd (charListCmp_law.gt_iff.mpr hc) hba'
  | eq => exact stringOfToList_inj (charListCmp_eq_iff.mp hc)
  | gt => exact absurd hc hab'

theorem sorted_perm_eq :
    ∀ {l₁ l₂ : List (String × List Nat)}, l₁.Perm l₂ →
    l₁.Pairwise pathLeRel → l₂.Pairwise pathLeRel →
    l₁.Pairwise (fun a b => a.1 ≠ b.1) → l₁ = l₂ := by
  intro l₁
  induction l₁ with
  | nil =>
    intro l₂ hp _ _ _
    exact (hp.symm.eq_nil).symm
  | cons a t ih =>
    intro l₂ hp hs₁ hs₂ hd
    cases l₂ with
    | nil => exact absurd hp.eq_nil (by simp)
    | cons b t₂ =>
      have hab : a = b := by
        by_contra hne
        have hbmem : b ∈ a :: t := hp.mem_iff.mpr (List.mem_cons_self b t₂)
        have hamem : a ∈ b :: t₂ := hp.mem_iff.mp (List.mem_cons_self a t)
        have hbt : b ∈ t := by
          rcases List.mem_cons.mp hbmem with h | h
          · exact absurd h.symm hne
          · exact h
        have hat₂ : a ∈ t₂ := by
          rcases List.mem_cons.mp hamem with h | h
          · exact absurd h hne
          · exact h
        have h₁ : pathLeRel a b := List.rel_of_pairwise_cons hs₁ hbt
        have h₂ : pathLeRel b a := List.rel_of_pairwise_cons hs₂ hat₂
        exact (List.rel_of_pairwise_cons hd hbt) (pathLe_antisymm h₁ h₂)
      subst hab
      have hp' : t.Perm t₂ := hp.cons_inv
      rw [ih hp' (List.Pairwise.of_cons hs₁) (List.Pairwise.of_cons hs₂)
        (List.Pairwise.of_cons hd)]

/-- C7: Sum's final digest over a directory is invariant under both the
filesystem iteration order and the worker completion order: for a fixed set
of (path, content) pairs with pairwise distinct paths, any two collected
result sequences that are permutations of the per-file digests produce the
same hex digest. -/
theorem sum_schedule_invariant
    (files : List (String × List Nat))
    (hdist : files.Pairwise (fun a b => a.1 ≠ b.1))
    (r₁ r₂ : List (String × List Nat))
    (h₁ : r₁.Perm (fileDigests files)) (h₂ : r₂.Perm (fileDigests files)) :
    sumDirFromResults r₁ = sumDirFromResults r₂ := by
  haveI : IsTotal (String × List Nat) pathLeRel := ⟨pathLeRel_total⟩
  haveI : IsTrans (String × List Nat) pathLeRel := ⟨pathLeRel_trans⟩
  have hsort₁ := List.sorted_insertionSort pathLeRel r₁
  have hsort₂ := List.sorted_insertionSort pathLeRel r₂
  have hperm : (r₁.insertionSort pathLeRel).Perm (r₂.insertionSort pathLeRel) :=
    ((List.perm_insertionSort pathLeRel r₁).trans (h₁.trans h₂.symm)).trans
      (List.perm_insertionSort pathLeRel r₂).symm
  have hdd : (fileDigests files).Pairwise (fun a b => a.1 ≠ b.1) := by
    unfold fileDigests
    exact List.pairwise_map.mpr hdist
  have hd₁ : (r₁.insertionSort pathLeRel).Pairwise (fun a b => a.1 ≠ b.1) := by
    have hsym : ∀ {x y : String × List Nat}, x.1 ≠ y.1 → y.1 ≠ x.1 :=
      fun h => fun he => h he.symm
    exact (List.Perm.pairwise_iff hsym
      ((List.perm_insertionSort pathLeRel r₁).trans h₁)).mpr hdd
  have heq := sorted_perm_eq hperm hsort₁ hsort₂ hd₁
  unfold sumDirFromResults
  rw [heq]

/-- Witness of the schedule-invariance claim: two files collected in
reversed completion orders give the same digest. -/
theorem sum_schedule_invariant_witness :
    sumDirFromResults (fileDigests [("a", [0]), ("b", [1])]) =
      sumDirFromResults ((fileDigests [("a", [0]), ("b", [1])]).reverse) :=
  sum_schedule_invariant [("a", [0]), ("b", [1])] (by decide)
    (fileDigests [("a", [0]), ("b", [1])])
    ((fileDigests [("a", [0]), ("b", [1])]).reverse)
    (List.Perm.refl _) ((fileDigests [("a", [0]), ("b", [1])]).reverse_perm)

end Packit

namespace Packit

/-! ## List lemmas for the constraint-pipeline analysis -/

theorem splitCharList_no_sep {sep : Char} {l : List Char} (h : ∀ x ∈ l, x ≠ sep) :
    splitCharList sep l = [l] := by
  induction l with
  | nil => rfl
  | cons c rest ih =>
    have hc : c ≠ sep := h c (List.mem_cons_self _ _)
    have ih' := ih (fun x hx => h x (List.mem_cons_of_mem _ hx))
    simp [splitCharList, hc, ih']

theorem splitCharList_append {sep : Char} {a r : List Char} (h : ∀ x ∈ a, x ≠ sep) :
    splitCharList sep (a ++ sep :: r) = a :: splitCharList sep r := by
  induction a with
  | nil => simp [splitCharList]
  | cons c rest ih =>
    have hc : c ≠ sep := h c (List.mem_cons_self _ _)
    have ih' := ih (fun x hx => h x (List.mem_cons_of_mem _ hx))
    simp [splitCharList, hc, ih']

theorem splitOrs_no_bar {l : List Char} (h : ∀ x ∈ l, x ≠ '|') :
    splitOrs l = [l] := by
  induction l with
  | nil => rfl
  | cons c rest ih =>
    have hc : c ≠ '|' := h c (List.mem_cons_self _ _)
    have ih' := ih (fun x hx => h x (List.mem_cons_of_mem _ hx))
    unfold splitOrs
    split
    · rename_i heq
      exact absurd heq (by simp)
    · rename_i rest' heq
      injection heq with h1 h2
      exact absurd h1 hc
    · rename_i d rest' hne heq
      injection heq with h1 h2
      subst h1; subst h2
      rw [ih']

theorem containsTildeGt_false {l : List Char} (h : ∀ x ∈ l, x ≠ '~') :
    containsTildeGt l = false := by
  induction l with
  | nil => rfl
  | cons c rest ih =>
    have hc : c ≠ '~' := h c (List.mem_cons_self _ _)
    have ih' := ih (fun x hx => h x (List.mem_cons_of_mem _ hx))
    unfold containsTildeGt
    split
    · rename_i heq
      exact absurd heq (by simp)
    · rename_i tail heq
      injection heq with h1 h2
      exact absurd h1 hc
    · rename_i d rest' hne heq
      injection heq with h1 h2
      subst h1; subst h2
      exact ih'

theorem stripTildeGt_id {l : List Char} (h : ∀ x ∈ l, x ≠ '~') :
    stripTildeGt l = l := by
  induction l with
  | nil => rfl
  | cons c rest ih =>
    have hc : c ≠ '~' := h c (List.mem_cons_self _ _)
    have ih' := ih (fun x hx => h x (List.mem_cons_of_mem _ hx))
    unfold stripTildeGt
    split
    · rename_i heq
      exact absurd heq (by simp)
    · rename_i rest' heq
      injection heq with h1 h2
      exact absurd h1 hc
    · rename_i d rest' hne heq
      injection heq with h1 h2
      subst h1; subst h2
      rw [ih']

end Packit

/-! ## Digit-segment facts for the pessimistic-rewrite analysis (C2) -/

namespace Packit

/-- A version segment as the rewrite grammar sees it: a nonempty all-digit
character run. -/
def DigitSeg (cs : List Char) : Prop := cs ≠ [] ∧ ∀ c ∈ cs, c.isDigit = true

theorem digit_ne {c : Char} (h : c.isDigit = true) {d : Char}
    (hd : d.isDigit = false) : c ≠ d := by
  intro he
  subst he
  rw [h] at hd
  exact Bool.noConfusion hd

theorem bodyChar_ne {x : Char} (hx : x.isDigit = true ∨ x = '.') {d : Char}
    (hd : d.isDigit = false) (hdot : d ≠ '.') : x ≠ d := by
  rcases hx with h | h
  · exact digit_ne h hd
  · rw [h]
    exact fun he => hdot he.symm

theorem bodyChar_not_space {x : Char} (hx : x.isDigit = true ∨ x = '.') :
    isSpaceC x = false := by
  have h1 : x ≠ ' ' := bodyChar_ne hx (by decide) (by decide)
  have h2 : x ≠ '\t' := bodyChar_ne hx (by decide) (by decide)
  have h3 : x ≠ '\n' := bodyChar_ne hx (by decide) (by decide)
  have h4 : x ≠ '\r' := bodyChar_ne hx (by decide) (by decide)
  have h5 : x ≠ '\x0c' := bodyChar_ne hx (by decide) (by decide)
  simp [isSpaceC, h1, h2, h3, h4, h5]

theorem bodyChar_not_sep {x : Char} (hx : x.isDigit = true ∨ x = '.') :
    isSepC x = false := by
  have h6 : x ≠ ',' := bodyChar_ne hx (by decide) (by decide)
  simp [isSepC, bodyChar_not_space hx, h6]

theorem natCompare_lt {a b : Nat} (h : a < b) : compare a b = .lt :=
  Nat.compare_eq_lt.mpr h

theorem natCompare_self (a : Nat) : compare a a = .eq :=
  Nat.compare_eq_eq.mpr rfl

theorem natCompare_gt {a b : Nat} (h : b < a) : compare a b = .gt :=
  Nat.compare_eq_gt.mpr h

theorem ordBeq_lt_lt : (Ordering.lt == Ordering.lt) = true := rfl

theorem ordBeq_eq_lt : (Ordering.eq == Ordering.lt) = false := rfl

theorem ordBeq_gt_lt : (Ordering.gt == Ordering.lt) = false := rfl

/-- Arithmetic characterization of LessThan on pre-release-free versions. -/
theorem semverLessThan_free (M m p X Y Z : Nat) :
    semverLessThan ⟨M, m, p, []⟩ ⟨X, Y, Z, []⟩ =
      decide (M < X ∨ (M = X ∧ (m < Y ∨ (m = Y ∧ p < Z)))) := by
  unfold semverLessThan semverCmp
  rcases Nat.lt_trichotomy M X with h | h | h
  · rw [natCompare_lt h]
    simp [Ordering.then, ordBeq_lt_lt, h]
  · subst h
    rw [natCompare_self]
    rcases Nat.lt_trichotomy m Y with h2 | h2 | h2
    · rw [natCompare_lt h2]
      simp [Ordering.then, ordBeq_lt_lt, h2]
    · subst h2
      rw [natCompare_self]
      rcases Nat.lt_trichotomy p Z with h3 | h3 | h3
      · rw [natCompare_lt h3]
        simp [Ordering.then, ordBeq_lt_lt, h3]
      · subst h3
        rw [natCompare_self]
        simp [Ordering.then, preCmp, ordBeq_eq_lt]
      · rw [natCompare_gt h3]
        simp [Ordering.then, ordBeq_gt_lt]
        omega
    · rw [natCompare_gt h2]
      simp [Ordering.then, ordBeq_gt_lt]
      omega
  · rw [natCompare_gt h]
    simp [Ordering.then, ordBeq_gt_lt]
    omega

end Packit

namespace Packit

theorem stripTildeGt_head : ∀ r : List Char, stripTildeGt ('~' :: '>' :: r) = stripTildeGt r :=
  fun _ => rfl

theorem stripTildeGt_space : ∀ r : List Char, stripTildeGt (' ' :: r) = ' ' :: stripTildeGt r :=
  fun _ => rfl

theorem containsTildeGt_head : ∀ r : List Char, containsTildeGt ('~' :: '>' :: r) = true :=
  fun _ => rfl

theorem bodyMem_three {sx sy sz : List Char}
    (hx : ∀ c ∈ sx, c.isDigit = true) (hy : ∀ c ∈ sy, c.isDigit = true)
    (hz : ∀ c ∈ sz, c.isDigit = true) :
    ∀ x ∈ sx ++ '.' :: sy ++ '.' :: sz, x.isDigit = true ∨ x = '.' := by
  intro x hm
  rcases List.mem_append.mp hm with h | h
  · rcases List.mem_append.mp h with h | h
    · exact Or.inl (hx x h)
    · rcases List.mem_cons.mp h with h | h
      · exact Or.inr h
      · exact Or.inl (hy x h)
  · rcases List.mem_cons.mp h with h | h
    · exact Or.inr h
    · exact Or.inl (hz x h)

theorem bodyMem_two {sx sy : List Char}
    (hx : ∀ c ∈ sx, c.isDigit = true) (hy : ∀ c ∈ sy, c.isDigit = true) :
    ∀ x ∈ sx ++ '.' :: sy, x.isDigit = true ∨ x = '.' := by
  intro x hm
  rcases List.mem_append.mp hm with h | h
  · exact Or.inl (hx x h)
  · rcases List.mem_cons.mp h with h | h
    · exact Or.inr h
    · exact Or.inl (hy x h)

/-- Shape of the rewrite for a three-segment pessimistic constraint. -/
theorem pessimisticRewrite_three {sx sy sz : List Char}
    (hx : ∀ c ∈ sx, c.isDigit = true) (hy : ∀ c ∈ sy, c.isDigit = true)
    (hz : ∀ c ∈ sz, c.isDigit = true) :
    pessimisticRewrite (String.mk ('~' :: '>' :: ' ' :: (sx ++ '.' :: sy ++ '.' :: sz))) =
      String.mk ('~' :: ' ' :: (sx ++ '.' :: sy ++ '.' :: sz)) := by
  have hmem := bodyMem_three hx hy hz
  have hnotilde : ∀ x ∈ sx ++ '.' :: sy ++ '.' :: sz, x ≠ '~' := fun x hm =>
    bodyChar_ne (hmem x hm) (by decide) (by decide)
  have hstrip : stripTildeGt ('~' :: '>' :: ' ' :: (sx ++ '.' :: sy ++ '.' :: sz)) =
      ' ' :: (sx ++ '.' :: sy ++ '.' :: sz) := by
    rw [stripTildeGt_head, stripTildeGt_space, stripTildeGt_id hnotilde]
  have hnodot_x : ∀ x ∈ (' ' :: sx), x ≠ '.' := by
    intro x hm
    rcases List.mem_cons.mp hm with h | h
    · rw [h]; decide
    · exact digit_ne (hx x h) (by decide)
  have hnodot_y : ∀ x ∈ sy, x ≠ '.' := fun x h => digit_ne (hy x h) (by decide)
  have hnodot_z : ∀ x ∈ sz, x ≠ '.' := fun x h => digit_ne (hz x h) (by decide)
  have hsplit : splitCharList '.' (' ' :: (sx ++ '.' :: sy ++ '.' :: sz)) =
      [' ' :: sx, sy, sz] := by
    have hassoc : (' ' : Char) :: (sx ++ '.' :: sy ++ '.' :: sz) =
        (' ' :: sx) ++ '.' :: (sy ++ '.' :: sz) := by simp
    rw [hassoc, splitCharList_append hnodot_x, splitCharList_append hnodot_y,
      splitCharList_no_sep hnodot_z]
  simp only [pessimisticRewrite, String.toList]
  rw [containsTildeGt_head, if_pos rfl, hstrip, hsplit, if_pos (by simp)]

/-- Shape of the rewrite for a two-segment pessimistic constraint. -/
theorem pessimisticRewrite_two {sx sy : List Char}
    (hx : ∀ c ∈ sx, c.isDigit = true) (hy : ∀ c ∈ sy, c.isDigit = true) :
    pessimisticRewrite (String.mk ('~' :: '>' :: ' ' :: (sx ++ '.' :: sy))) =
      String.mk ('^' :: ' ' :: (sx ++ '.' :: sy)) := by
  have hmem := bodyMem_two hx hy
  have hnotilde : ∀ x ∈ sx ++ '.' :: sy, x ≠ '~' := fun x hm =>
    bodyChar_ne (hmem x hm) (by decide) (by decide)
  have hstrip : stripTildeGt ('~' :: '>' :: ' ' :: (sx ++ '.' :: sy)) =
      ' ' :: (sx ++ '.' :: sy) := by
    rw [stripTildeGt_head, stripTildeGt_space, stripTildeGt_id hnotilde]
  have hnodot_x : ∀ x ∈ (' ' :: sx), x ≠ '.' := by
    intro x hm
    rcases List.mem_cons.mp hm with h | h
    · rw [h]; decide
    · exact digit_ne (hx x h) (by decide)
  have hnodot_y : ∀ x ∈ sy, x ≠ '.' := fun x h => digit_ne (hy x h) (by decide)
  have hsplit : splitCharList '.' (' ' :: (sx ++ '.' :: sy)) = [' ' :: sx, sy] := by
    have hassoc : (' ' : Char) :: (sx ++ '.' :: sy) = (' ' :: sx) ++ '.' :: sy := by simp
    rw [hassoc, splitCharList_append hnodot_x, splitCharList_no_sep hnodot_y]
  simp only [pessimisticRewrite, String.toList]
  rw [containsTildeGt_head, if_pos rfl, hstrip, hsplit, if_neg (by simp)]

/-- Shape of the rewrite for a one-segment pessimistic constraint. -/
theorem pessimisticRewrite_one {sx : List Char}
    (hx : ∀ c ∈ sx, c.isDigit = true) :
    pessimisticRewrite (String.mk ('~' :: '>' :: ' ' :: sx)) =
      String.mk ('^' :: ' ' :: sx) := by
  have hnotilde : ∀ x ∈ sx, x ≠ '~' := fun x hm =>
    digit_ne (hx x hm) (by decide)
  have hstrip : stripTildeGt ('~' :: '>' :: ' ' :: sx) = ' ' :: sx := by
    rw [stripTildeGt_head, stripTildeGt_space, stripTildeGt_id hnotilde]
  have hnodot_x : ∀ x ∈ (' ' :: sx), x ≠ '.' := by
    intro x hm
    rcases List.mem_cons.mp hm with h | h
    · rw [h]; decide
    · exact digit_ne (hx x h) (by decide)
  have hsplit : splitCharList '.' (' ' :: sx) = [' ' :: sx] :=
    splitCharList_no_sep hnodot_x
  simp only [pessimisticRewrite, String.toList]
  rw [containsTildeGt_head, if_pos rfl, hstrip, hsplit, if_neg (by simp)]

end Packit

namespace Packit

theorem parseSeg_digits {s : List Char} (hne : s ≠ [])
    (hall : ∀ c ∈ s, c.isDigit = true) :
    parseSeg s = some (some (digitsVal s)) := by
  have hw : isWildcard s = false := by
    have h1 : s ≠ ['x'] := by
      intro he
      have := hall 'x' (by rw [he]; exact List.mem_singleton_self _)
      exact absurd this (by decide)
    have h2 : s ≠ ['X'] := by
      intro he
      have := hall 'X' (by rw [he]; exact List.mem_singleton_self _)
      exact absurd this (by decide)
    have h3 : s ≠ ['*'] := by
      intro he
      have := hall '*' (by rw [he]; exact List.mem_singleton_self _)
      exact absurd this (by decide)
    simp [isWildcard, h1, h2, h3]
  have hni : ¬(s.isEmpty = true) := by simp [List.isEmpty_iff, hne]
  have hpn : parseNatDigits s = some (digitsVal s) := by
    unfold parseNatDigits
    rw [if_neg hni, if_pos (List.all_eq_true.mpr hall)]
  unfold parseSeg
  rw [hw, if_neg (by simp), hpn]
  rfl

theorem optionLoop_cons {α β : Type _} (f : α → Option β) {a : α} {l : List α}
    {acc : List β} {b : β} (hfa : f a = some b) :
    List.mapM.loop f (a :: l) acc = List.mapM.loop f l (b :: acc) := by
  show (f a).bind (fun x => List.mapM.loop f l (x :: acc)) =
    List.mapM.loop f l (b :: acc)
  rw [hfa]
  rfl

theorem mapM_parseSeg_three {sx sy sz : List Char}
    (hx : DigitSeg sx) (hy : DigitSeg sy) (hz : DigitSeg sz) :
    [sx, sy, sz].mapM parseSeg =
      some [some (digitsVal sx), some (digitsVal sy), some (digitsVal sz)] := by
  show List.mapM.loop parseSeg [sx, sy, sz] [] = _
  rw [optionLoop_cons parseSeg (parseSeg_digits hx.1 hx.2),
    optionLoop_cons parseSeg (parseSeg_digits hy.1 hy.2),
    optionLoop_cons parseSeg (parseSeg_digits hz.1 hz.2)]
  rfl

theorem mapM_parseSeg_two {sx sy : List Char}
    (hx : DigitSeg sx) (hy : DigitSeg sy) :
    [sx, sy].mapM parseSeg = some [some (digitsVal sx), some (digitsVal sy)] := by
  show List.mapM.loop parseSeg [sx, sy] [] = _
  rw [optionLoop_cons parseSeg (parseSeg_digits hx.1 hx.2),
    optionLoop_cons parseSeg (parseSeg_digits hy.1 hy.2)]
  rfl

theorem mapM_parseSeg_one {sx : List Char} (hx : DigitSeg sx) :
    [sx].mapM parseSeg = some [some (digitsVal sx)] := by
  show List.mapM.loop parseSeg [sx] [] = _
  rw [optionLoop_cons parseSeg (parseSeg_digits hx.1 hx.2)]
  rfl

/-- Generic computation of parseUnitVersion on a digit-and-dot body with a
known dot decomposition. -/
theorem parseUnitVersion_segs {body : List Char} {segs : List (List Char)}
    {vals : List (Option Nat)} {u : ConstraintUnit} (op : CmpOp)
    (hmem : ∀ x ∈ body, x.isDigit = true ∨ x = '.')
    (hv : ¬(body.head? = some 'v'))
    (hsplit : splitCharList '.' body = segs)
    (hmap : segs.mapM parseSeg = some vals)
    (hbuild : buildUnit op vals [] = some u) :
    parseUnitVersion op body = some u := by
  have hplus : splitCharList '+' body = [body] :=
    splitCharList_no_sep (fun x hx => bodyChar_ne (hmem x hx) (by decide) (by decide))
  have htake : body.takeWhile (fun c => c ≠ '-') = body :=
    List.takeWhile_eq_self_iff.mpr (fun x hx =>
      decide_eq_true (bodyChar_ne (hmem x hx) (by decide) (by decide)))
  have hdrop : body.dropWhile (fun c => c ≠ '-') = [] :=
    List.dropWhile_eq_nil_iff.mpr (fun x hx =>
      decide_eq_true (bodyChar_ne (hmem x hx) (by decide) (by decide)))
  simp only [parseUnitVersion]
  rw [if_neg hv, hplus]
  show parseUnitMain op body = some u
  simp only [parseUnitMain]
  rw [htake, hdrop, hsplit, hmap]
  show buildUnit op vals [] = some u
  exact hbuild

theorem tokenizeUnitsFuel_nil : ∀ fuel, tokenizeUnitsFuel fuel [] = some [] := by
  intro fuel
  cases fuel <;> rfl

theorem tokenizeUnitsFuel_cons (fuel : Nat) (c : Char) (rest : List Char) :
    tokenizeUnitsFuel (fuel + 1) (c :: rest) =
      if isSepC c then tokenizeUnitsFuel fuel rest
      else
        match unitSplit (c :: rest) with
        | (op, tok, r₃) =>
          if tok = [] then none
          else
            match parseUnitVersion op tok with
            | none => none
            | some u =>
              match tokenizeUnitsFuel fuel r₃ with
              | none => none
              | some us => some (u :: us) := rfl

/-- Tokenization of a one-unit group `c₀ SPACE body` whose operator consumes
one character. -/
theorem tokenizeUnits_op_one {c₀ : Char} {body : List Char} {op : CmpOp}
    {u : ConstraintUnit}
    (hop : readOpSpec (c₀ :: ' ' :: body) = (op, 1))
    (hsep : isSepC c₀ = false)
    (hmem : ∀ x ∈ body, x.isDigit = true ∨ x = '.')
    (hne : body ≠ [])
    (hu : parseUnitVersion op body = some u) :
    tokenizeUnits (c₀ :: ' ' :: body) = some [u] := by
  obtain ⟨b, bs, rfl⟩ := List.exists_cons_of_ne_nil hne
  have hbd : b.isDigit = true ∨ b = '.' := hmem b (List.mem_cons_self _ _)
  have hbs : isSpaceC b = false := bodyChar_not_space hbd
  have htake : (b :: bs).takeWhile (fun x => !isSepC x) = b :: bs :=
    List.takeWhile_eq_self_iff.mpr (fun x hx => by
      simp [bodyChar_not_sep (hmem x hx)])
  have hdropsep : (b :: bs).dropWhile (fun x => !isSepC x) = [] :=
    List.dropWhile_eq_nil_iff.mpr (fun x hx => by
      simp [bodyChar_not_sep (hmem x hx)])
  have hunit : unitSplit (c₀ :: ' ' :: (b :: bs)) = (op, b :: bs, []) := by
    simp only [unitSplit, hop]
    simp only [List.drop_succ_cons, List.drop_zero]
    rw [List.dropWhile_cons, if_pos (by decide)]
    rw [List.dropWhile_cons, hbs]
    rw [if_neg (by simp)]
    rw [htake, hdropsep]
  unfold tokenizeUnits
  rw [show (c₀ :: ' ' :: b :: bs).length = (bs.length + 2) + 1 from by
    simp [List.length_cons]]
  rw [tokenizeUnitsFuel_cons]
  rw [if_neg (by simp [hsep])]
  rw [hunit]
  show (if (b :: bs) = [] then none
    else
      match parseUnitVersion op (b :: bs) with
      | none => none
      | some u =>
        match tokenizeUnitsFuel (bs.length + 2) [] with
        | none => none
        | some us => some (u :: us)) = some [u]
  rw [if_neg (by simp), hu, tokenizeUnitsFuel_nil]

theorem newConstraintL_single {l : List Char} {u : ConstraintUnit}
    (hnobar : ∀ x ∈ l, x ≠ '|')
    (htok : tokenizeUnits l = some [u]) :
    newConstraintL l = some [[u]] := by
  have hf : (fun g => do
      let us ← tokenizeUnits g
      if us.isEmpty then none else some us :
        List Char → Option (List ConstraintUnit)) l = some [u] := by
    show (tokenizeUnits l).bind
      (fun us => if us.isEmpty then none else some us) = some [u]
    rw [htok]
    rfl
  unfold newConstraintL
  rw [splitOrs_no_bar hnobar]
  show List.mapM.loop _ [l] [] = some [[u]]
  rw [optionLoop_cons (fun g => do
      let us ← tokenizeUnits g
      if us.isEmpty then none else some us :
        List Char → Option (List ConstraintUnit)) hf]
  rfl

end Packit

namespace Packit

theorem head_not_v {body : List Char} {c : Char} (hb : body.head? = some c)
    (hc : c.isDigit = true) : ¬(body.head? = some 'v') := by
  rw [hb]
  intro he
  injection he with he
  exact digit_ne hc (by decide) he

theorem nobar_opSpace {c₀ : Char} {body : List Char}
    (hc : c₀ ≠ '|') (hmem : ∀ x ∈ body, x.isDigit = true ∨ x = '.') :
    ∀ x ∈ c₀ :: ' ' :: body, x ≠ '|' := by
  intro x hm
  rcases List.mem_cons.mp hm with h | h
  · rw [h]; exact hc
  · rcases List.mem_cons.mp h with h | h
    · rw [h]; decide
    · exact bodyChar_ne (hmem x h) (by decide) (by decide)

/-- End-to-end parse of a rewritten three-segment pessimistic constraint:
one clean tilde unit. -/
theorem newConstraint_pessimistic_three {sx sy sz : List Char}
    (hx : DigitSeg sx) (hy : DigitSeg sy) (hz : DigitSeg sz) :
    newConstraint (pessimisticRewrite
        (String.mk ('~' :: '>' :: ' ' :: (sx ++ '.' :: sy ++ '.' :: sz)))) =
      some [[⟨.tildeOp, ⟨digitsVal sx, digitsVal sy, digitsVal sz, []⟩,
        false, false, false⟩]] := by
  have hmem := bodyMem_three hx.2 hy.2 hz.2
  have hdx : ∀ x ∈ sx, x ≠ '.' := fun x h => digit_ne (hx.2 x h) (by decide)
  have hdy : ∀ x ∈ sy, x ≠ '.' := fun x h => digit_ne (hy.2 x h) (by decide)
  have hdz : ∀ x ∈ sz, x ≠ '.' := fun x h => digit_ne (hz.2 x h) (by decide)
  obtain ⟨c, cs, hsx⟩ := List.exists_cons_of_ne_nil hx.1
  have hhead : (sx ++ '.' :: sy ++ '.' :: sz).head? = some c := by
    rw [hsx]; rfl
  have hv := head_not_v hhead (hx.2 c (by rw [hsx]; exact List.mem_cons_self _ _))
  have hassoc : sx ++ '.' :: sy ++ '.' :: sz = sx ++ '.' :: (sy ++ '.' :: sz) := by
    simp
  have hsplit : splitCharList '.' (sx ++ '.' :: sy ++ '.' :: sz) = [sx, sy, sz] := by
    rw [hassoc, splitCharList_append hdx, splitCharList_append hdy,
      splitCharList_no_sep hdz]
  have hu := parseUnitVersion_segs CmpOp.tildeOp hmem hv hsplit
    (mapM_parseSeg_three hx hy hz) rfl
  have hne : sx ++ '.' :: sy ++ '.' :: sz ≠ [] := by
    intro h
    exact absurd (List.append_eq_nil.mp h).2 (by simp)
  have hop : readOpSpec ('~' :: ' ' :: (sx ++ '.' :: sy ++ '.' :: sz)) =
      (CmpOp.tildeOp, 1) := rfl
  have htok := tokenizeUnits_op_one hop (by decide) hmem hne hu
  rw [pessimisticRewrite_three hx.2 hy.2 hz.2]
  show newConstraintL ('~' :: ' ' :: (sx ++ '.' :: sy ++ '.' :: sz)) = _
  exact newConstraintL_single (nobar_opSpace (by decide) hmem) htok

/-- End-to-end parse of a rewritten two-segment pessimistic constraint: one
caret unit with a dirty patch. -/
theorem newConstraint_pessimistic_two {sx sy : List Char}
    (hx : DigitSeg sx) (hy : DigitSeg sy) :
    newConstraint (pessimisticRewrite
        (String.mk ('~' :: '>' :: ' ' :: (sx ++ '.' :: sy)))) =
      some [[⟨.caretOp, ⟨digitsVal sx, digitsVal sy, 0, []⟩,
        true, false, true⟩]] := by
  have hmem := bodyMem_two hx.2 hy.2
  have hdx : ∀ x ∈ sx, x ≠ '.' := fun x h => digit_ne (hx.2 x h) (by decide)
  have hdy : ∀ x ∈ sy, x ≠ '.' := fun x h => digit_ne (hy.2 x h) (by decide)
  obtain ⟨c, cs, hsx⟩ := List.exists_cons_of_ne_nil hx.1
  have hhead : (sx ++ '.' :: sy).head? = some c := by
    rw [hsx]; rfl
  have hv := head_not_v hhead (hx.2 c (by rw [hsx]; exact List.mem_cons_self _ _))
  have hsplit : splitCharList '.' (sx ++ '.' :: sy) = [sx, sy] := by
    rw [splitCharList_append hdx, splitCharList_no_sep hdy]
  have hu := parseUnitVersion_segs CmpOp.caretOp hmem hv hsplit
    (mapM_parseSeg_two hx hy) rfl
  have hne : sx ++ '.' :: sy ≠ [] := by
    intro h
    exact absurd (List.append_eq_nil.mp h).2 (by simp)
  have hop : readOpSpec ('^' :: ' ' :: (sx ++ '.' :: sy)) =
      (CmpOp.caretOp, 1) := rfl
  have htok := tokenizeUnits_op_one hop (by decide) hmem hne hu
  rw [pessimisticRewrite_two hx.2 hy.2]
  show newConstraintL ('^' :: ' ' :: (sx ++ '.' :: sy)) = _
  exact newConstraintL_single (nobar_opSpace (by decide) hmem) htok

/-- End-to-end parse of a rewritten one-segment pessimistic constraint: one
caret unit with dirty minor. -/
theorem newConstraint_pessimistic_one {sx : List Char} (hx : DigitSeg sx) :
    newConstraint (pessimisticRewrite (String.mk ('~' :: '>' :: ' ' :: sx))) =
      some [[⟨.caretOp, ⟨digitsVal sx, 0, 0, []⟩, true, true, false⟩]] := by
  have hmem : ∀ x ∈ sx, x.isDigit = true ∨ x = '.' := fun x h => Or.inl (hx.2 x h)
  have hdx : ∀ x ∈ sx, x ≠ '.' := fun x h => digit_ne (hx.2 x h) (by decide)
  obtain ⟨c, cs, hsx⟩ := List.exists_cons_of_ne_nil hx.1
  have hhead : sx.head? = some c := by
    rw [hsx]; rfl
  have hv := head_not_v hhead (hx.2 c (by rw [hsx]; exact List.mem_cons_self _ _))
  have hsplit : splitCharList '.' sx = [sx] := splitCharList_no_sep hdx
  have hu := parseUnitVersion_segs CmpOp.caretOp hmem hv hsplit
    (mapM_parseSeg_one hx) rfl
  have hop : readOpSpec ('^' :: ' ' :: sx) = (CmpOp.caretOp, 1) := rfl
  have htok := tokenizeUnits_op_one hop (by decide) hmem hx.1 hu
  rw [pessimisticRewrite_one hx.2]
  show newConstraintL ('^' :: ' ' :: sx) = _
  exact newConstraintL_single (nobar_opSpace (by decide) hmem) htok

end Packit

namespace Packit

theorem checkUnit_pre_guard (M m p : Nat) (a : PreId) (as : List PreId)
    (op : CmpOp) (X Y Z : Nat) (d md pd : Bool) :
    checkUnit ⟨M, m, p, a :: as⟩ ⟨op, ⟨X, Y, Z, []⟩, d, md, pd⟩ = false := by
  simp [checkUnit, preGuardOk]

theorem checkUnit_tilde_free (M m p X Y Z : Nat) :
    checkUnit ⟨M, m, p, []⟩ ⟨.tildeOp, ⟨X, Y, Z, []⟩, false, false, false⟩ = true ↔
      (¬(M < X ∨ (M = X ∧ (m < Y ∨ (m = Y ∧ p < Z)))) ∧
        ((X = 0 ∧ Y = 0 ∧ Z = 0) ∨ (M = X ∧ m = Y))) := by
  have hguard : preGuardOk ⟨M, m, p, []⟩
      ⟨.tildeOp, ⟨X, Y, Z, []⟩, false, false, false⟩ = true := rfl
  simp only [checkUnit, hguard]
  rw [if_neg (by simp)]
  show checkTilde ⟨M, m, p, []⟩ ⟨.tildeOp, ⟨X, Y, Z, []⟩, false, false, false⟩ = true ↔ _
  unfold checkTilde
  rw [semverLessThan_free]
  split_ifs with h1 h2 h3 h4 <;> simp_all <;> omega

theorem checkUnit_ge_free (M m p X Y Z : Nat) :
    checkUnit ⟨M, m, p, []⟩ ⟨.geOp, ⟨X, Y, Z, []⟩, false, false, false⟩ = true ↔
      ¬(M < X ∨ (M = X ∧ (m < Y ∨ (m = Y ∧ p < Z)))) := by
  have hguard : preGuardOk ⟨M, m, p, []⟩
      ⟨.geOp, ⟨X, Y, Z, []⟩, false, false, false⟩ = true := rfl
  simp only [checkUnit, hguard]
  rw [if_neg (by simp)]
  show checkGTE ⟨M, m, p, []⟩ ⟨.geOp, ⟨X, Y, Z, []⟩, false, false, false⟩ = true ↔ _
  unfold checkGTE
  rw [semverLessThan_free]
  simp
  omega

theorem checkUnit_lt_free (M m p A B C : Nat) :
    checkUnit ⟨M, m, p, []⟩ ⟨.ltOp, ⟨A, B, C, []⟩, false, false, false⟩ = true ↔
      (M < A ∨ (M = A ∧ (m < B ∨ (m = B ∧ p < C)))) := by
  have hguard : preGuardOk ⟨M, m, p, []⟩
      ⟨.ltOp, ⟨A, B, C, []⟩, false, false, false⟩ = true := rfl
  simp only [checkUnit, hguard]
  rw [if_neg (by simp)]
  show checkLessThan ⟨M, m, p, []⟩ ⟨.ltOp, ⟨A, B, C, []⟩, false, false, false⟩ = true ↔ _
  unfold checkLessThan
  rw [semverLessThan_free]
  simp

theorem checkUnit_caret_two_free (M m p X Y : Nat) :
    checkUnit ⟨M, m, p, []⟩ ⟨.caretOp, ⟨X, Y, 0, []⟩, true, false, true⟩ = true ↔
      (¬(M < X ∨ (M = X ∧ (m < Y ∨ (m = Y ∧ p < 0)))) ∧
        ((0 < X ∧ M = X) ∨ (¬0 < X ∧ M = X ∧ m = Y))) := by
  have hguard : preGuardOk ⟨M, m, p, []⟩
      ⟨.caretOp, ⟨X, Y, 0, []⟩, true, false, true⟩ = true := rfl
  simp only [checkUnit, hguard]
  rw [if_neg (by simp)]
  show checkCaret ⟨M, m, p, []⟩ ⟨.caretOp, ⟨X, Y, 0, []⟩, true, false, true⟩ = true ↔ _
  unfold checkCaret
  rw [semverLessThan_free]
  split_ifs with h1 h2 h3 <;> simp_all <;> omega

theorem checkUnit_caret_one_free (M m p X : Nat) :
    checkUnit ⟨M, m, p, []⟩ ⟨.caretOp, ⟨X, 0, 0, []⟩, true, true, false⟩ = true ↔
      (¬(M < X ∨ (M = X ∧ (m < 0 ∨ (m = 0 ∧ p < 0)))) ∧ M = X) := by
  have hguard : preGuardOk ⟨M, m, p, []⟩
      ⟨.caretOp, ⟨X, 0, 0, []⟩, true, true, false⟩ = true := rfl
  simp only [checkUnit, hguard]
  rw [if_neg (by simp)]
  show checkCaret ⟨M, m, p, []⟩ ⟨.caretOp, ⟨X, 0, 0, []⟩, true, true, false⟩ = true ↔ _
  unfold checkCaret
  rw [semverLessThan_free]
  split_ifs with h1 h2 h3 <;> simp_all <;> omega

/-- The parsed tilde unit of `~X.Y.Z` agrees with the conjunction
`>=X.Y.Z, <X.(Y+1).0` on every version, provided X.Y.Z is not 0.0.0. -/
theorem tilde_unit_range_equiv (X Y Z : Nat) (hnz : ¬(X = 0 ∧ Y = 0 ∧ Z = 0))
    (v : SemVer) :
    checkUnits v [⟨.tildeOp, ⟨X, Y, Z, []⟩, false, false, false⟩] =
      checkUnits v [⟨.geOp, ⟨X, Y, Z, []⟩, false, false, false⟩,
        ⟨.ltOp, ⟨X, Y + 1, 0, []⟩, false, false, false⟩] := by
  obtain ⟨M, m, p, pre⟩ := v
  cases pre with
  | cons a as =>
    simp [checkUnits, checkUnit_pre_guard]
  | nil =>
    rw [Bool.eq_iff_iff]
    simp only [checkUnits, List.all_cons, List.all_nil, Bool.and_true,
      Bool.and_eq_true]
    rw [checkUnit_tilde_free, checkUnit_ge_free, checkUnit_lt_free]
    omega

/-- The parsed caret unit of `^X.Y` agrees with the conjunction
`>=X.Y.0, <(X+1).0.0` on every version, provided 1 ≤ X. -/
theorem caret_two_unit_range_equiv (X Y : Nat) (hX : 1 ≤ X) (v : SemVer) :
    checkUnits v [⟨.caretOp, ⟨X, Y, 0, []⟩, true, false, true⟩] =
      checkUnits v [⟨.geOp, ⟨X, Y, 0, []⟩, false, false, false⟩,
        ⟨.ltOp, ⟨X + 1, 0, 0, []⟩, false, false, false⟩] := by
  obtain ⟨M, m, p, pre⟩ := v
  cases pre with
  | cons a as =>
    simp [checkUnits, checkUnit_pre_guard]
  | nil =>
    rw [Bool.eq_iff_iff]
    simp only [checkUnits, List.all_cons, List.all_nil, Bool.and_true,
      Bool.and_eq_true]
    rw [checkUnit_caret_two_free, checkUnit_ge_free, checkUnit_lt_free]
    omega

/-- The parsed caret unit of `^X` agrees with the conjunction
`>=X.0.0, <(X+1).0.0` on every version. -/
theorem caret_one_unit_range_equiv (X : Nat) (v : SemVer) :
    checkUnits v [⟨.caretOp, ⟨X, 0, 0, []⟩, true, true, false⟩] =
      checkUnits v [⟨.geOp, ⟨X, 0, 0, []⟩, false, false, false⟩,
        ⟨.ltOp, ⟨X + 1, 0, 0, []⟩, false, false, false⟩] := by
  obtain ⟨M, m, p, pre⟩ := v
  cases pre with
  | cons a as =>
    simp [checkUnits, checkUnit_pre_guard]
  | nil =>
    rw [Bool.eq_iff_iff]
    simp only [checkUnits, List.all_cons, List.all_nil, Bool.and_true,
      Bool.and_eq_true]
    rw [checkUnit_caret_one_free, checkUnit_ge_free, checkUnit_lt_free]
    omega

end Packit

namespace Packit

theorem constraintsCheck_single (u : ConstraintUnit) (v : SemVer) :
    constraintsCheck [[u]] v = checkUnits v [u] := by
  simp [constraintsCheck]

/-- C2 (amended): the pessimistic-operator rewrite triggers on an occurrence
of `~>` anywhere in the version, and leaves a version without one unchanged;
for a version of the form `~> X.Y.Z` (digit segments) the rewritten string
parses to a constraint equivalent to the range `>=X.Y.Z, <X.(Y+1).0`
provided X.Y.Z is not 0.0.0 (there the tilde unit accepts every version);
for `~> X.Y` it is equivalent to `>=X.Y.0, <(X+1).0.0` provided 1 ≤ X (at
major 0 the caret instead pins the minor); for `~> X` it is equivalent to
`>=X.0.0, <(X+1).0.0` for every X. -/
theorem pessimistic_rewrite_ranges :
    (∀ s : String, containsTildeGt s.toList = false → pessimisticRewrite s = s) ∧
    (∀ sx sy sz : List Char, DigitSeg sx → DigitSeg sy → DigitSeg sz →
      ¬(digitsVal sx = 0 ∧ digitsVal sy = 0 ∧ digitsVal sz = 0) →
      ∀ v : SemVer,
        (newConstraint (pessimisticRewrite
            (String.mk ('~' :: '>' :: ' ' :: (sx ++ '.' :: sy ++ '.' :: sz))))).map
              (fun cs => constraintsCheck cs v) =
          some (checkUnits v
            [⟨.geOp, ⟨digitsVal sx, digitsVal sy, digitsVal sz, []⟩,
              false, false, false⟩,
             ⟨.ltOp, ⟨digitsVal sx, digitsVal sy + 1, 0, []⟩,
              false, false, false⟩])) ∧
    (∀ sx sy : List Char, DigitSeg sx → DigitSeg sy → 1 ≤ digitsVal sx →
      ∀ v : SemVer,
        (newConstraint (pessimisticRewrite
            (String.mk ('~' :: '>' :: ' ' :: (sx ++ '.' :: sy))))).map
              (fun cs => constraintsCheck cs v) =
          some (checkUnits v
            [⟨.geOp, ⟨digitsVal sx, digitsVal sy, 0, []⟩, false, false, false⟩,
             ⟨.ltOp, ⟨digitsVal sx + 1, 0, 0, []⟩, false, false, false⟩])) ∧
    (∀ sx : List Char, DigitSeg sx → ∀ v : SemVer,
        (newConstraint (pessimisticRewrite
            (String.mk ('~' :: '>' :: ' ' :: sx)))).map
              (fun cs => constraintsCheck cs v) =
          some (checkUnits v
            [⟨.geOp, ⟨digitsVal sx, 0, 0, []⟩, false, false, false⟩,
             ⟨.ltOp, ⟨digitsVal sx + 1, 0, 0, []⟩, false, false, false⟩])) := by
  refine ⟨?_, ?_, ?_, ?_⟩
  · intro s h
    simp only [pessimisticRewrite]
    rw [h]
    simp
  · intro sx sy sz hx hy hz hnz v
    rw [newConstraint_pessimistic_three hx hy hz]
    exact congrArg some (by
      simp only [constraintsCheck_single]
      rw [tilde_unit_range_equiv _ _ _ hnz])
  · intro sx sy hx hy hX v
    rw [newConstraint_pessimistic_two hx hy]
    exact congrArg some (by
      simp only [constraintsCheck_single]
      rw [caret_two_unit_range_equiv _ _ hX])
  · intro sx hx v
    rw [newConstraint_pessimistic_one hx]
    exact congrArg some (by
      simp only [constraintsCheck_single]
      rw [caret_one_unit_range_equiv])

/-- C2 counterexample: the rewrite triggers on a version that merely
contains `~>` rather than starting with it, and for `~> 0.2` the rewritten
constraint (`^ 0.2`) rejects version 0.5.0 although the claimed range
`>=0.2.0, <1.0.0` accepts it. -/
theorem pessimistic_rewrite_counterexample :
    pessimisticRewrite " ~> 1.2.3" ≠ " ~> 1.2.3" ∧
    (newConstraint (pessimisticRewrite "~> 0.2")).map
        (fun cs => constraintsCheck cs ⟨0, 5, 0, []⟩) = some false ∧
    checkUnits ⟨0, 5, 0, []⟩
      [⟨.geOp, ⟨0, 2, 0, []⟩, false, false, false⟩,
       ⟨.ltOp, ⟨1, 0, 0, []⟩, false, false, false⟩] = true := by
  refine ⟨?_, ?_, ?_⟩
  · decide
  · rfl
  · decide

/-- Witness for the amended pessimistic-rewrite claim at the versions
`1.2.3` (no operator), `~> 1.2.3`, `~> 1.0` and `~> 2`. -/
theorem pessimistic_rewrite_ranges_witness :
    pessimisticRewrite "1.2.3" = "1.2.3" ∧
    (newConstraint (pessimisticRewrite
        (String.mk ('~' :: '>' :: ' ' :: (['1'] ++ '.' :: ['2'] ++ '.' :: ['3']))))).map
          (fun cs => constraintsCheck cs ⟨1, 2, 9, []⟩) =
      some (checkUnits ⟨1, 2, 9, []⟩
        [⟨.geOp, ⟨digitsVal ['1'], digitsVal ['2'], digitsVal ['3'], []⟩,
          false, false, false⟩,
         ⟨.ltOp, ⟨digitsVal ['1'], digitsVal ['2'] + 1, 0, []⟩,
          false, false, false⟩]) ∧
    (newConstraint (pessimisticRewrite
        (String.mk ('~' :: '>' :: ' ' :: (['1'] ++ '.' :: ['0']))))).map
          (fun cs => constraintsCheck cs ⟨1, 0, 0, []⟩) =
      some (checkUnits ⟨1, 0, 0, []⟩
        [⟨.geOp, ⟨digitsVal ['1'], digitsVal ['0'], 0, []⟩, false, false, false⟩,
         ⟨.ltOp, ⟨digitsVal ['1'] + 1, 0, 0, []⟩, false, false, false⟩]) ∧
    (newConstraint (pessimisticRewrite
        (String.mk ('~' :: '>' :: ' ' :: ['2'])))).map
          (fun cs => constraintsCheck cs ⟨2, 1, 0, []⟩) =
      some (checkUnits ⟨2, 1, 0, []⟩
        [⟨.geOp, ⟨digitsVal ['2'], 0, 0, []⟩, false, false, false⟩,
         ⟨.ltOp, ⟨digitsVal ['2'] + 1, 0, 0, []⟩, false, false, false⟩]) := by
  refine ⟨?_, ?_, ?_, ?_⟩
  · exact pessimistic_rewrite_ranges.1 "1.2.3" (by decide)
  · exact pessimistic_rewrite_ranges.2.1 ['1'] ['2'] ['3'] ⟨by decide, by decide⟩
      ⟨by decide, by decide⟩ ⟨by decide, by decide⟩ (by decide) ⟨1, 2, 9, []⟩
  · exact pessimistic_rewrite_ranges.2.2.1 ['1'] ['0'] ⟨by decide, by decide⟩
      ⟨by decide, by decide⟩ (by decide) ⟨1, 0, 0, []⟩
  · exact pessimistic_rewrite_ranges.2.2.2 ['2'] ⟨by decide, by decide⟩ ⟨2, 1, 0, []⟩

end Packit
